import Mathlib

/-!
Verification of the retrieval core of `src/app.py` (class SimpleRAG).

The program is embedded shallowly:

* Text is `List Char` (`Str`), so that Python's string algorithms can be
  modelled as structural recursions that the kernel can evaluate.
* `SimpleRAG.load_documents` splits each document on the separator "\n\n"
  (Python `doc.split('\n\n')`), whitespace-normalises each paragraph
  (Python `' '.join(para.split())`), discards empty paragraphs, and re-wraps
  paragraphs longer than 500 characters with `textwrap.wrap(cleaned, 500)`.
  The wrapper below follows CPython's `TextWrapper._wrap_chunks` with the
  default options used by `textwrap.wrap` (drop_whitespace=True,
  break_long_words=True, initial/subsequent indent empty, max_lines=None).
  Two simplifications, both invisible on the inputs this program feeds to
  `wrap`: the whitespace pre-pass (expandtabs + replace_whitespace) is
  omitted because `cleaned` is already a single-space-separated word list
  (proved below), and the hyphen-aware chunk splitter `wordsep_re` is
  replaced by the plain word/space splitter (`break_on_hyphens` only adds
  extra break opportunities inside hyphenated words; every concrete input
  used in a theorem below is hyphen-free).  The long-word breaking branch of
  `_handle_long_word`, including its last-hyphen preference, is modelled
  faithfully.
* `SentenceTransformer.encode` is an external embedding provider; it is a
  field `model : Str → List ℚ` of the state (float32 vectors idealised as
  rationals), deterministic and fixed per instance, as in the source where
  `self.model` is set once in `__init__`.
* `faiss.IndexFlatL2` stores its dimension and the added vectors.  Its
  `search` computes exact squared-L2 distances, returns the `k` best pairs
  (distance, id) in ascending order, and — as documented FAISS behaviour
  when `k` exceeds the number of stored vectors — pads the remaining slots
  with id `-1` and distance `FLT_MAX` (float32 maximum, `2^128 - 2^104`).
  The Python binding asserts that the query dimensionality equals the index
  dimensionality, modelled as the `dimensionMismatch` error.  Ties between
  equal distances are resolved by ascending id (the deterministic
  idealisation of the exact flat search).
* Python list indexing `self.chunks[idx]` is `pyGet`: a negative index is
  taken from the end (FAISS's `-1` padding id therefore silently selects the
  LAST chunk), and an out-of-range access is the `indexError` outcome.
-/

/-- Text as a list of characters (Python `str`). -/
abbrev Str := List Char

/-- The ASCII whitespace recognised by Python's `str.split()` / `str.strip()`
(space, tab, newline, carriage return, vertical tab, form feed).  The further
Unicode whitespace accepted by Python is not used by any input below. -/
def pySpace (c : Char) : Bool :=
  c = ' ' || c = '\t' || c = '\n' || c = '\r' || c = '\x0b' || c = '\x0c'

/-- The non-whitespace characters of a text, in order. -/
def filterNS (s : Str) : Str := s.filter (fun c => !(pySpace c))

/-- Worker for `splitParas`: Python's `doc.split('\n\n')`, scanning left to
right for non-overlapping occurrences of the two-newline separator. -/
def splitParasGo (cur : Str) : Str → List Str
  | [] => [cur]
  | '\n' :: '\n' :: rest => cur :: splitParasGo [] rest
  | c :: rest => splitParasGo (cur ++ [c]) rest

/-- Python `doc.split('\n\n')` (line 20 of `app.py`). -/
def splitParas (doc : Str) : List Str := splitParasGo [] doc

/-- Worker for `pySplit`: Python's argument-free `str.split()`, splitting on
runs of whitespace and discarding empty pieces. -/
def pySplitGo (cur : Str) : Str → List Str
  | [] => if cur = [] then [] else [cur]
  | c :: rest =>
    if pySpace c then
      if cur = [] then pySplitGo [] rest else cur :: pySplitGo [] rest
    else pySplitGo (cur ++ [c]) rest

/-- Python `para.split()` (line 23 of `app.py`): the whitespace-delimited
words of a text. -/
def pySplit (s : Str) : List Str := pySplitGo [] s

/-- Python `' '.join(para.split())` (line 23 of `app.py`): the cleaned
paragraph, with whitespace runs collapsed to single spaces and ends
trimmed. -/
def cleanedOf (para : Str) : Str := List.intercalate [' '] (pySplit para)

/-- Worker for `splitChunks`: groups a text into maximal runs of whitespace
and non-whitespace; `k` is the kind (whitespace?) of the run accumulated in
`cur`. -/
def splitChunksGo (k : Bool) (cur : Str) : Str → List Str
  | [] => [cur]
  | c :: rest =>
    if pySpace c = k then splitChunksGo k (cur ++ [c]) rest
    else cur :: splitChunksGo (pySpace c) [c] rest

/-- `textwrap`'s chunk splitter: alternating runs of non-whitespace and
whitespace (the hyphen-free simplification of `wordsep_re`, see the header
comment). -/
def splitChunks : Str → List Str
  | [] => []
  | c :: rest => splitChunksGo (pySpace c) [c] rest

/-- Total length of a list of chunks. -/
def lenSum (l : List Str) : Nat := (l.map List.length).sum

/-- Termination measure for the wrapping loop: total character count plus
chunk count. -/
def chMeasure (l : List Str) : Nat := l.foldr (fun c n => c.length + 1 + n) 0

/-- The inner `while` of `TextWrapper._wrap_chunks`: move chunks onto the
current line while they fit within `width`.  Returns the current line, its
length, and the remaining chunks. -/
def takeLine (width : Nat) : Nat → List Str → List Str → List Str × Nat × List Str
  | curLen, cur, [] => (cur, curLen, [])
  | curLen, cur, c :: rest =>
    if curLen + c.length ≤ width then takeLine width (curLen + c.length) (cur ++ [c]) rest
    else (cur, curLen, c :: rest)

/-- Index of the last `'-'` of a text, if any (Python `chunk.rfind('-', 0, n)`
applied to the truncated chunk). -/
def lastHyphen : Str → Option Nat
  | [] => none
  | c :: rest =>
    match lastHyphen rest with
    | some i => some (i + 1)
    | none => if c = '-' then some 0 else none

/-- The break position chosen by `TextWrapper._handle_long_word` with
`break_long_words=True` and `break_on_hyphens=True`: by default the space
left on the line, but the position after the last usable hyphen of the kept
part when the chunk overflows and such a hyphen exists. -/
def hlwEnd (spaceLeft : Nat) (c : Str) : Nat :=
  if spaceLeft < c.length then
    match lastHyphen (c.take spaceLeft) with
    | some h =>
      if 0 < h ∧ (c.take h).any (fun ch => ch ≠ '-') then h + 1 else spaceLeft
    | none => spaceLeft
  else spaceLeft

/-- `TextWrapper._handle_long_word` with `break_long_words=True` and
`break_on_hyphens=True`: break the over-long chunk `c` to fill the space left
on the current line.  Returns the kept part and the remainder. -/
def handleLongWord (width curLen : Nat) (c : Str) : Str × Str :=
  let spaceLeft := if width < 1 then 1 else width - curLen
  (c.take (hlwEnd spaceLeft c), c.drop (hlwEnd spaceLeft c))

/-- Python `chunk.strip() == ''`: the chunk is whitespace-only (or empty). -/
def isBlank (c : Str) : Bool := c.all pySpace

/-- The one-shot trailing-whitespace drop of `_wrap_chunks`
(`if ... cur_line and cur_line[-1].strip() == '': del cur_line[-1]`). -/
def dropTrailingBlank (cur2 : List Str) : List Str :=
  match cur2.getLast? with
  | some lc => if isBlank lc then cur2.dropLast else cur2
  | none => cur2

/-- End of one `_wrap_chunks` iteration: drop one trailing whitespace chunk
and emit the joined line if anything remains (`if cur_line:
lines.append(''.join(cur_line))`). -/
def finishLine (cur2 rem2 : List Str) : Option Str × List Str :=
  match dropTrailingBlank cur2 with
  | [] => (none, rem2)
  | l => (some l.flatten, rem2)

/-- The body of one iteration of the outer `while` of
`TextWrapper._wrap_chunks` after the leading-whitespace drop: fill the line,
break a long word if the first leftover chunk exceeds the width, finish the
line.  Returns the emitted line (if any) and the remaining chunks. -/
def wrapStepCore (width : Nat) (chunks1 : List Str) : Option Str × List Str :=
  match takeLine width 0 [] chunks1 with
  | (cur, _, []) => finishLine cur []
  | (cur, curLen, c :: rs) =>
    if width < c.length then
      finishLine (cur ++ [(handleLongWord width curLen c).1])
        ((handleLongWord width curLen c).2 :: rs)
    else finishLine cur (c :: rs)

/-- One iteration of the outer `while` of `TextWrapper._wrap_chunks`
(`drop_whitespace=True`): drop a leading whitespace chunk (only once a line
has been emitted, `hl`, mirroring the `and lines` guard), then run the line
body. -/
def wrapStep (width : Nat) (hl : Bool) (chunks : List Str) : Option Str × List Str :=
  match chunks with
  | [] => (none, [])
  | c0 :: rest0 =>
    wrapStepCore width (if hl ∧ isBlank c0 then rest0 else c0 :: rest0)

/-- The outer `while` of `TextWrapper._wrap_chunks`, driven by fuel.  The fuel
is set to `chMeasure chunks + 1` at entry, which is proved sufficient
(`wrapStep` strictly decreases `chMeasure`), so the out-of-fuel branch is
unreachable. -/
def wrapLoopF (width : Nat) : Nat → Bool → List Str → List Str
  | 0, _, _ => []
  | _ + 1, _, [] => []
  | fuel + 1, hl, c :: cs =>
    match wrapStep width hl (c :: cs) with
    | (some l, rest) => l :: wrapLoopF width fuel true rest
    | (none, rest) => wrapLoopF width fuel hl rest

/-- `textwrap.wrap(text, width)` (line 27 of `app.py`). -/
def textwrapWrap (text : Str) (width : Nat) : List Str :=
  let chunks := splitChunks text
  wrapLoopF width (chMeasure chunks + 1) false chunks

/-- The per-paragraph body of `SimpleRAG.load_documents` (lines 21-30 of
`app.py`): clean the paragraph, drop it if empty, wrap it if longer than 500
characters. -/
def chunkPara (para : Str) : List Str :=
  let cleaned := cleanedOf para
  if cleaned = [] then []
  else if 500 < cleaned.length then textwrapWrap cleaned 500
  else [cleaned]

/-- All chunks contributed by one document (lines 18-30 of `app.py`). -/
def chunkDoc (doc : Str) : List Str := ((splitParas doc).map chunkPara).flatten

/-- The chunk list built by `SimpleRAG.load_documents` from a document list
(`self.chunks` after the call). -/
def chunkDocs (docs : List Str) : List Str := (docs.map chunkDoc).flatten

/-- `faiss.IndexFlatL2`: the declared dimension and the stored base
vectors. -/
structure FaissIndexFlatL2 where
  d : Nat
  xb : List (List ℚ)
  deriving Repr, DecidableEq

/-- The state of a `SimpleRAG` object: the embedding model fixed at
construction, the optional FAISS index, and the chunk list. -/
structure SimpleRAG where
  model : Str → List ℚ
  index : Option FaissIndexFlatL2
  chunks : List Str

/-- `SimpleRAG.__init__`: no index, no chunks. -/
def SimpleRAG.init (model : Str → List ℚ) : SimpleRAG :=
  { model := model, index := none, chunks := [] }

/-- `SimpleRAG.load_documents` (lines 15-30 of `app.py`): rebuild
`self.chunks` from scratch; the index is untouched. -/
def SimpleRAG.load_documents (s : SimpleRAG) (documents : List Str) : SimpleRAG :=
  { s with chunks := chunkDocs documents }

/-- `SimpleRAG.build_index` (lines 32-45 of `app.py`): with no chunks, return
leaving the previous index in place; otherwise embed all chunks and replace
the index with a fresh `IndexFlatL2` whose dimension is the embedding width
(`embeddings.shape[1]`, the length of the first row). -/
def SimpleRAG.build_index (s : SimpleRAG) : SimpleRAG :=
  match s.chunks with
  | [] => s
  | c :: _ =>
    { s with index := some { d := (s.model c).length, xb := s.chunks.map s.model } }

/-- Squared L2 distance, the metric of `IndexFlatL2` (coordinates beyond the
shorter vector do not arise: `search` first checks dimensions). -/
def sqL2 (u v : List ℚ) : ℚ :=
  ((u.zip v).map (fun p => (p.1 - p.2) * (p.1 - p.2))).sum

/-- The largest finite float32, `(2 - 2⁻²³) · 2¹²⁷`: FAISS's padding distance
for result slots beyond the number of stored vectors. -/
def FLT_MAX : ℚ := 2 ^ 128 - 2 ^ 104

/-- The ordering of FAISS search results: ascending distance, ties by
ascending id. -/
def pairLe (a b : ℚ × Int) : Prop := a.1 < b.1 ∨ (a.1 = b.1 ∧ a.2 ≤ b.2)

instance : DecidableRel pairLe := fun a b =>
  inferInstanceAs (Decidable (a.1 < b.1 ∨ (a.1 = b.1 ∧ a.2 ≤ b.2)))

instance : IsTotal (ℚ × Int) pairLe :=
  ⟨fun a b => by
    rcases lt_trichotomy a.1 b.1 with h | h | h
    · exact Or.inl (Or.inl h)
    · rcases le_total a.2 b.2 with h2 | h2
      · exact Or.inl (Or.inr ⟨h, h2⟩)
      · exact Or.inr (Or.inr ⟨h.symm, h2⟩)
    · exact Or.inr (Or.inl h)⟩

instance : IsTrans (ℚ × Int) pairLe :=
  ⟨fun a b c hab hbc => by
    rcases hab with h1 | ⟨e1, l1⟩
    · rcases hbc with h2 | ⟨e2, _⟩
      · exact Or.inl (h1.trans h2)
      · exact Or.inl (e2 ▸ h1)
    · rcases hbc with h2 | ⟨e2, l2⟩
      · exact Or.inl (e1 ▸ h2)
      · exact Or.inr ⟨e1.trans e2, l1.trans l2⟩⟩

/-- The (distance, id) pairs of a query against the stored vectors, ids
numbered from `i`. -/
def distPairs (q : List ℚ) : Nat → List (List ℚ) → List (ℚ × Int)
  | _, [] => []
  | i, v :: vs => (sqL2 q v, (i : Int)) :: distPairs q (i + 1) vs

/-- All (distance, id) pairs of a query against an index, best first. -/
def knnAll (I : FaissIndexFlatL2) (q : List ℚ) : List (ℚ × Int) :=
  List.insertionSort pairLe (distPairs q 0 I.xb)

/-- `IndexFlatL2.search` restricted to one query: exactly `k` result slots,
the surplus padded with distance `FLT_MAX` and id `-1`. -/
def faissSearchList (I : FaissIndexFlatL2) (q : List ℚ) (k : Nat) : List (ℚ × Int) :=
  let s := knnAll I q
  s.take k ++ List.replicate (k - s.length) (FLT_MAX, -1)

/-- The failure modes of `SimpleRAG.retrieve`: the FAISS binding's dimension
assertion, and Python's `IndexError` from `self.chunks[idx]`. -/
inductive PyErr where
  | dimensionMismatch
  | indexError
  deriving DecidableEq, Repr

/-- One formatted result of `SimpleRAG.retrieve` (lines 63-67 of
`app.py`). -/
structure RankedResult where
  chunk : Str
  score : ℚ
  rank : Nat
  deriving DecidableEq, Repr

/-- Python list indexing `xs[i]`: a negative index counts from the end, an
out-of-range access is an error (`none`). -/
def pyGet {α : Type} (xs : List α) (i : Int) : Option α :=
  if 0 ≤ i then xs[i.toNat]?
  else
    let j : Int := (xs.length : Int) + i
    if 0 ≤ j then xs[j.toNat]? else none

/-- The result-formatting loop of `SimpleRAG.retrieve` (lines 61-67 of
`app.py`): ranks count from `i + 1`; a bad chunk index raises. -/
def formatResults (chunks : List Str) : Nat → List (ℚ × Int) → Except PyErr (List RankedResult)
  | _, [] => .ok []
  | i, (d, idx) :: rest =>
    match pyGet chunks idx with
    | none => .error .indexError
    | some c =>
      match formatResults chunks (i + 1) rest with
      | .error e => .error e
      | .ok rs => .ok ({ chunk := c, score := d, rank := i + 1 } :: rs)

/-- `SimpleRAG.retrieve` (lines 47-69 of `app.py`).  `if not self.index`
tests for `None` (a FAISS index object is always truthy), the query is
embedded with the instance's own model, the index is searched for `k`
neighbours, and the results are formatted with 1-based ranks. -/
def SimpleRAG.retrieve (s : SimpleRAG) (query : Str) (k : Nat) :
    Except PyErr (List RankedResult) :=
  match s.index with
  | none => .ok []
  | some I =>
    let qe := s.model query
    if qe.length = I.d then formatResults s.chunks 0 (faissSearchList I qe k)
    else .error .dimensionMismatch

/-- `SimpleRAG.retrieve` as a method on the object state: the returned state
is the receiver itself, mirroring that the method body never writes a
field of `self`. -/
def SimpleRAG.retrieveM (s : SimpleRAG) (query : Str) (k : Nat) :
    Except PyErr (List RankedResult) × SimpleRAG :=
  (s.retrieve query k, s)

/-- The number of embeddings held by the system (0 when no index exists). -/
def embCount (s : SimpleRAG) : Nat :=
  match s.index with
  | none => 0
  | some I => I.xb.length

deriving instance DecidableEq for Except

/-! ### Basic facts about the retrieval side -/

/-- Indexing the empty list fails for every index. -/
theorem pyGet_nil {α : Type} (i : Int) : pyGet ([] : List α) i = none := by
  unfold pyGet
  split
  · simp
  · simp

/-- A successful Python indexing returns an element of the list. -/
theorem pyGet_mem {α : Type} {xs : List α} {i : Int} {a : α}
    (h : pyGet xs i = some a) : a ∈ xs := by
  unfold pyGet at h
  split at h
  · exact List.getElem?_mem h
  · dsimp at h
    split at h
    · exact List.getElem?_mem h
    · exact absurd h (by simp)

/-- A successful run of the result-formatting loop yields one result per
search slot, carries over the distances as scores in order, and only ever
returns stored chunks. -/
theorem formatResults_ok {chunks : List Str} :
    ∀ (pairs : List (ℚ × Int)) (i : Nat) (rs : List RankedResult),
      formatResults chunks i pairs = .ok rs →
      rs.length = pairs.length ∧
      rs.map RankedResult.score = pairs.map Prod.fst ∧
      ∀ r ∈ rs, r.chunk ∈ chunks := by
  intro pairs
  induction pairs with
  | nil =>
    intro i rs h
    simp only [formatResults] at h
    cases h
    simp
  | cons p rest ih =>
    intro i rs h
    obtain ⟨d, idx⟩ := p
    simp only [formatResults] at h
    cases hg : pyGet chunks idx with
    | none => rw [hg] at h; cases h
    | some c =>
      rw [hg] at h
      cases hrec : formatResults chunks (i + 1) rest with
      | error e => rw [hrec] at h; cases h
      | ok rs' =>
        rw [hrec] at h
        cases h
        obtain ⟨h1, h2, h3⟩ := ih (i + 1) rs' hrec
        refine ⟨by simp [h1], by simp [h2], ?_⟩
        intro r hr
        rcases List.mem_cons.mp hr with h | h
        · subst h; exact pyGet_mem hg
        · exact h3 r h

/-- The formatting loop fails at once when the first search slot's id does
not address a chunk. -/
theorem formatResults_head_err {chunks : List Str} {d : ℚ} {idx : Int}
    {rest : List (ℚ × Int)} {i : Nat} (h : pyGet chunks idx = none) :
    formatResults chunks i ((d, idx) :: rest) = .error .indexError := by
  simp only [formatResults, h]

/-- Every pair produced by `distPairs` is the distance to some stored vector,
with an id at least the starting id. -/
theorem distPairs_mem {q : List ℚ} :
    ∀ (vs : List (List ℚ)) (i : Nat) (p : ℚ × Int), p ∈ distPairs q i vs →
      (∃ v ∈ vs, p.1 = sqL2 q v) ∧ (i : Int) ≤ p.2 := by
  intro vs
  induction vs with
  | nil => intro i p h; cases h
  | cons v vs ih =>
    intro i p h
    rcases List.mem_cons.mp h with h | h
    · subst h
      exact ⟨⟨v, List.mem_cons_self v vs, rfl⟩, le_refl _⟩
    · obtain ⟨⟨w, hw, he⟩, hi⟩ := ih (i + 1) p h
      refine ⟨⟨w, List.mem_cons_of_mem v hw, he⟩, ?_⟩
      calc (i : Int) ≤ ((i + 1 : Nat) : Int) := by push_cast; omega
        _ ≤ p.2 := hi

/-- `distPairs` produces one pair per stored vector. -/
theorem distPairs_length {q : List ℚ} :
    ∀ (vs : List (List ℚ)) (i : Nat), (distPairs q i vs).length = vs.length := by
  intro vs
  induction vs with
  | nil => intro i; rfl
  | cons v vs ih => intro i; simp [distPairs, ih]

/-- Membership in the sorted neighbour list is membership in the raw
distance list. -/
theorem mem_knnAll {I : FaissIndexFlatL2} {q : List ℚ} {p : ℚ × Int}
    (h : p ∈ knnAll I q) : p ∈ distPairs q 0 I.xb :=
  (List.perm_insertionSort pairLe (distPairs q 0 I.xb)).subset h

/-- The last entry of a list is an element of it. -/
theorem mem_of_getLast?_eq {α : Type} :
    ∀ {l : List α} {a : α}, l.getLast? = some a → a ∈ l := by
  intro l
  induction l with
  | nil => intro a h; cases h
  | cons x t ih =>
    intro a h
    cases t with
    | nil => cases h; exact List.mem_singleton.mpr rfl
    | cons y t' =>
      rw [List.getLast?_cons_cons] at h
      exact List.mem_cons_of_mem x (ih h)

/-- A constant list is a chain for any relation the element bears to
itself. -/
theorem chain'_replicate_of_refl {α : Type} {R : α → α → Prop} (a : α) (h : R a a) :
    ∀ n, List.Chain' R (List.replicate n a) := by
  intro n
  induction n with
  | zero => exact List.chain'_nil
  | succ m ih =>
    rw [List.replicate_succ]
    refine List.chain'_cons'.mpr ⟨?_, ih⟩
    intro y hy
    cases m with
    | zero => cases hy
    | succ m' =>
      rw [List.replicate_succ, List.head?_cons] at hy
      cases hy
      exact h

/-- The sorted neighbour list is sorted by distance with ties by id. -/
theorem knnAll_sorted (I : FaissIndexFlatL2) (q : List ℚ) :
    List.Pairwise pairLe (knnAll I q) :=
  List.sorted_insertionSort pairLe (distPairs q 0 I.xb)

/-- The full `k`-slot search output (real results then padding) is ordered:
ascending distance, ties by ascending id — provided every true distance is
below the padding sentinel `FLT_MAX`. -/
theorem faissSearchList_chain (I : FaissIndexFlatL2) (q : List ℚ) (k : Nat)
    (hd : ∀ v ∈ I.xb, sqL2 q v < FLT_MAX) :
    List.Chain' pairLe (faissSearchList I q k) := by
  unfold faissSearchList
  refine List.chain'_append.mpr ⟨?_, ?_, ?_⟩
  · exact (List.Pairwise.sublist (List.take_sublist k _) (knnAll_sorted I q)).chain'
  · exact chain'_replicate_of_refl (FLT_MAX, -1) (Or.inr ⟨rfl, le_refl _⟩) _
  · intro x hx y hy
    have hxm : x ∈ knnAll I q :=
      List.take_subset k _ (mem_of_getLast?_eq hx)
    obtain ⟨⟨v, hv, he⟩, _⟩ := distPairs_mem I.xb 0 x (mem_knnAll hxm)
    have hyv : y = (FLT_MAX, -1) := by
      rcases Nat.eq_zero_or_pos (k - (knnAll I q).length) with h0 | h0
      · rw [h0] at hy; cases hy
      · obtain ⟨m, hm⟩ := Nat.exists_eq_succ_of_ne_zero (Nat.pos_iff_ne_zero.mp h0)
        rw [hm, List.replicate_succ, List.head?_cons] at hy
        cases hy; rfl
    subst hyv
    exact Or.inl (he ▸ hd v hv)

/-- Unfolding `retrieve` when an index exists and the dimensions agree. -/
theorem retrieve_eq_formatResults {s : SimpleRAG} {I : FaissIndexFlatL2}
    (q : Str) (k : Nat) (hI : s.index = some I)
    (hdim : (s.model q).length = I.d) :
    s.retrieve q k = formatResults s.chunks 0 (faissSearchList I (s.model q) k) := by
  unfold SimpleRAG.retrieve
  rw [hI]
  simp [hdim]

/-! ### Concrete instances used by the closed theorems below -/

/-- A concrete deterministic embedding model: one dimension, the text
length. -/
def m0 : Str → List ℚ := fun s => [(s.length : ℚ)]

/-- The add-documents action performed on a fresh system with the single
document "Python" (one chunk). -/
def ragPy : SimpleRAG :=
  ((SimpleRAG.init m0).load_documents [String.toList "Python"]).build_index

/-- The add-documents action performed on a fresh system with the single
document "A" (one chunk). -/
def ragA : SimpleRAG :=
  ((SimpleRAG.init m0).load_documents [String.toList "A"]).build_index

/-- `ragA` after a second add-documents action whose document chunks to
nothing (the empty document). -/
def ragA2 : SimpleRAG := (ragA.load_documents [String.toList ""]).build_index

/-- A state whose index dimensionality (2) disagrees with the model's output
dimensionality (1). -/
def ragMis : SimpleRAG :=
  { model := m0, index := some { d := 2, xb := [[0, 0]] }, chunks := [] }

/-! ### The wrapping loop: basic bookkeeping -/

/-- A word chunk: non-empty, with no whitespace characters. -/
def isWord (c : Str) : Prop := c ≠ [] ∧ ∀ ch ∈ c, pySpace ch = false

/-- A chunk reachable inside the wrapper on this program's inputs: a word or
a single space. -/
def okChunk (c : Str) : Prop := isWord c ∨ c = [' ']

/-- No two single-space chunks are adjacent. -/
def chunkRel (a b : Str) : Prop := a = [' '] → b ≠ [' ']

/-- The chunk-list invariant of the wrapper on this program's inputs. -/
def okList (l : List Str) : Prop :=
  (∀ c ∈ l, okChunk c) ∧ List.Chain' chunkRel l

/-- No two adjacent space characters. -/
def noTwoSpB : Str → Bool
  | a :: b :: t => (!(a == ' ' && b == ' ')) && noTwoSpB (b :: t)
  | _ => true

/-- A clean output chunk: non-empty, starting with a non-whitespace
character, with no two adjacent spaces, and with the space character as its
only whitespace. -/
def CleanChunkB (c : Str) : Bool :=
  (!c.isEmpty) &&
  (match c.head? with
   | none => true
   | some h => !(pySpace h)) &&
  noTwoSpB c &&
  c.all (fun ch => !(pySpace ch) || ch == ' ')

theorem chMeasure_nil : chMeasure [] = 0 := rfl

theorem chMeasure_cons (c : Str) (l : List Str) :
    chMeasure (c :: l) = c.length + 1 + chMeasure l := rfl

theorem chMeasure_append (a b : List Str) :
    chMeasure (a ++ b) = chMeasure a + chMeasure b := by
  induction a with
  | nil => simp [chMeasure_nil, chMeasure]
  | cons c t ih => simp [chMeasure_cons, ih]; omega

theorem lenSum_nil : lenSum [] = 0 := rfl

theorem lenSum_cons (c : Str) (l : List Str) :
    lenSum (c :: l) = c.length + lenSum l := by
  simp [lenSum]

theorem lenSum_append (a b : List Str) : lenSum (a ++ b) = lenSum a + lenSum b := by
  simp [lenSum]

theorem length_flatten_eq_lenSum (l : List Str) : l.flatten.length = lenSum l := by
  simp [lenSum, List.length_flatten]

/-- Full description of the inner line-filling loop: it moves a prefix of the
chunks onto the line, accumulates their total length, never exceeds the
width, and stops exactly when the next chunk would overflow the line. -/
theorem takeLine_spec (width : Nat) :
    ∀ (l : List Str) (n : Nat) (cur : List Str),
      ∃ pre suf, l = pre ++ suf ∧
        takeLine width n cur l = (cur ++ pre, n + lenSum pre, suf) ∧
        (n ≤ width → n + lenSum pre ≤ width) ∧
        (∀ x ∈ suf.head?, width < n + lenSum pre + x.length) := by
  intro l
  induction l with
  | nil =>
    intro n cur
    refine ⟨[], [], by simp, by simp [takeLine, lenSum_nil], ?_, ?_⟩
    · intro hn
      simpa [lenSum_nil] using hn
    · intro x hx
      cases hx
  | cons c rest ih =>
    intro n cur
    by_cases h : n + c.length ≤ width
    · obtain ⟨pre, suf, he, ht, hb, hs⟩ := ih (n + c.length) (cur ++ [c])
      refine ⟨c :: pre, suf, by simp [he], ?_, ?_, ?_⟩
      · rw [takeLine, if_pos h, ht, lenSum_cons, List.append_assoc,
          List.singleton_append, Nat.add_assoc]
      · intro _
        rw [lenSum_cons]
        have := hb h
        omega
      · intro x hx
        have := hs x hx
        rw [lenSum_cons]
        omega
    · refine ⟨[], c :: rest, rfl, by rw [takeLine, if_neg h]; simp [lenSum_nil], ?_, ?_⟩
      · intro hn
        simpa [lenSum_nil] using hn
      · intro x hx
        rw [List.head?_cons] at hx
        have hxc : c = x := by simpa using hx
        subst hxc
        rw [lenSum_nil]
        omega

theorem lastHyphen_lt : ∀ {s : Str} {h : Nat}, lastHyphen s = some h → h < s.length := by
  intro s
  induction s with
  | nil => intro h hh; cases hh
  | cons c t ih =>
    intro h hh
    rw [lastHyphen] at hh
    cases hlh : lastHyphen t with
    | some i =>
      rw [hlh] at hh
      cases hh
      have := ih hlh
      simp
      omega
    | none =>
      rw [hlh] at hh
      by_cases hc : c = '-'
      · rw [if_pos hc] at hh
        cases hh
        simp
      · rw [if_neg hc] at hh
        cases hh

/-- The break position never exceeds the space left on the line. -/
theorem hlwEnd_le (sl : Nat) (c : Str) : hlwEnd sl c ≤ sl := by
  unfold hlwEnd
  by_cases hlt : sl < c.length
  · rw [if_pos hlt]
    cases hlh : lastHyphen (c.take sl) with
    | some h =>
      dsimp only
      by_cases hcond : 0 < h ∧ (c.take h).any (fun ch => ch ≠ '-')
      · rw [if_pos hcond]
        have hhl := lastHyphen_lt hlh
        rw [List.length_take] at hhl
        omega
      · rw [if_neg hcond]
    | none => dsimp only; exact Nat.le_refl sl
  · rw [if_neg hlt]

/-- Something is always kept when the space left is positive. -/
theorem hlwEnd_pos (sl : Nat) (c : Str) (hsl : 1 ≤ sl) : 1 ≤ hlwEnd sl c := by
  unfold hlwEnd
  by_cases hlt : sl < c.length
  · rw [if_pos hlt]
    cases hlh : lastHyphen (c.take sl) with
    | some h =>
      dsimp only
      by_cases hcond : 0 < h ∧ (c.take h).any (fun ch => ch ≠ '-')
      · rw [if_pos hcond]; omega
      · rw [if_neg hcond]; exact hsl
    | none => dsimp only; exact hsl
  · rw [if_neg hlt]; exact hsl

/-- The long-word breaker keeps a prefix and leaves the matching suffix; the
kept part fits in the space left on the line, and something is kept whenever
the line is still empty. -/
theorem handleLongWord_spec (w n : Nat) (c : Str) (hw : 1 ≤ w) :
    ∃ e, handleLongWord w n c = (c.take e, c.drop e) ∧ e ≤ w - n ∧ (n = 0 → 1 ≤ e) := by
  have hnl : ¬ w < 1 := Nat.not_lt.mpr hw
  refine ⟨hlwEnd (w - n) c, ?_, ?_, ?_⟩
  · unfold handleLongWord
    rw [if_neg hnl]
  · exact hlwEnd_le (w - n) c
  · intro hn0
    subst hn0
    exact hlwEnd_pos w c hw

/-! ### Chunk-list invariants of the wrapper -/

theorem pySpace_space : pySpace ' ' = true := rfl

theorem word_ne_space_chunk {c : Str} (h : isWord c) : c ≠ [' '] := by
  intro he
  have := h.2 ' ' (by rw [he]; exact List.mem_singleton.mpr rfl)
  rw [pySpace_space] at this
  cases this

theorem word_not_blank {c : Str} (h : isWord c) : ¬ isBlank c = true := by
  intro hb
  obtain ⟨ch, t, he⟩ := List.exists_cons_of_ne_nil h.1
  have h1 := h.2 ch (by rw [he]; exact List.mem_cons_self ch t)
  have h2 := (List.all_eq_true.mp hb) ch (by rw [he]; exact List.mem_cons_self ch t)
  rw [h1] at h2
  cases h2

theorem blank_okChunk_eq_space {c : Str} (hok : okChunk c) (hb : isBlank c = true) :
    c = [' '] := by
  rcases hok with hw | he
  · exact absurd hb (word_not_blank hw)
  · exact he

theorem filterNS_blank {c : Str} (hb : isBlank c = true) : filterNS c = [] := by
  unfold filterNS
  rw [List.filter_eq_nil_iff]
  intro ch hch
  rw [List.all_eq_true.mp hb ch hch]
  simp

theorem isBlank_nil : isBlank ([] : Str) = true := rfl

theorem chMeasure_pos {l : List Str} (h : l ≠ []) : 1 ≤ chMeasure l := by
  obtain ⟨c, t, he⟩ := List.exists_cons_of_ne_nil h
  rw [he, chMeasure_cons]
  omega

theorem okList_nil : okList [] := by
  constructor
  · intro c hc; cases hc
  · exact List.chain'_nil

theorem okList_of_append_left {a b : List Str} (h : okList (a ++ b)) : okList a :=
  ⟨fun c hc => h.1 c (List.mem_append_left b hc), (List.chain'_append.mp h.2).1⟩

theorem okList_of_append_right {a b : List Str} (h : okList (a ++ b)) : okList b :=
  ⟨fun c hc => h.1 c (List.mem_append_right a hc), (List.chain'_append.mp h.2).2.1⟩

theorem okList_tail {c : Str} {l : List Str} (h : okList (c :: l)) : okList l :=
  ⟨fun x hx => h.1 x (List.mem_cons_of_mem c hx), h.2.tail⟩

/-- Appending one word chunk to an invariant-satisfying list keeps the
invariant. -/
theorem okList_concat_word {l : List Str} {tk : Str} (h : okList l) (hw : isWord tk) :
    okList (l ++ [tk]) := by
  refine ⟨?_, ?_⟩
  · intro c hc
    rcases List.mem_append.mp hc with hc | hc
    · exact h.1 c hc
    · rw [List.mem_singleton.mp hc]
      exact Or.inl hw
  · refine List.chain'_append.mpr ⟨h.2, List.chain'_singleton tk, ?_⟩
    intro x _ y hy
    rw [List.head?_cons] at hy
    cases hy
    intro _
    exact word_ne_space_chunk hw

/-! ### Joined lines are clean -/

theorem noTwoSpB_cons_cons (x y : Char) (t : Str) :
    noTwoSpB (x :: y :: t) = ((!(x == ' ' && y == ' ')) && noTwoSpB (y :: t)) := rfl

theorem noTwoSpB_of_no_space : ∀ {c : Str}, (∀ ch ∈ c, pySpace ch = false) →
    noTwoSpB c = true := by
  intro c
  induction c with
  | nil => intro _; rfl
  | cons x t ih =>
    intro h
    cases t with
    | nil => rfl
    | cons y t' =>
      rw [noTwoSpB_cons_cons, Bool.and_eq_true]
      refine ⟨?_, ih ?_⟩
      · have hx := h x (List.mem_cons_self x _)
        have : x ≠ ' ' := by
          intro he; rw [he, pySpace_space] at hx; cases hx
        simp [this]
      · intro ch hch
        exact h ch (List.mem_cons_of_mem x hch)

theorem noTwoSpB_append : ∀ {a : Str} {b : Str}, noTwoSpB a = true → noTwoSpB b = true →
    (∀ x ∈ a.getLast?, ∀ y ∈ b.head?, ¬(x = ' ' ∧ y = ' ')) →
    noTwoSpB (a ++ b) = true := by
  intro a
  induction a with
  | nil => intro b _ hb _; exact hb
  | cons x t ih =>
    intro b ha hb hab
    cases t with
    | nil =>
      cases b with
      | nil => rfl
      | cons y u =>
        rw [List.singleton_append, noTwoSpB_cons_cons, Bool.and_eq_true]
        refine ⟨?_, hb⟩
        have := hab x (by simp) y (by simp)
        by_cases hx : x = ' '
        · by_cases hy : y = ' '
          · exact absurd ⟨hx, hy⟩ this
          · simp [hy]
        · simp [hx]
    | cons x' t' =>
      rw [List.cons_append, List.cons_append, noTwoSpB_cons_cons, Bool.and_eq_true]
      rw [noTwoSpB_cons_cons, Bool.and_eq_true] at ha
      obtain ⟨h1, h2⟩ := ha
      refine ⟨h1, ?_⟩
      have := ih h2 hb (by
        intro u hu y hy
        refine hab u ?_ y hy
        rw [List.getLast?_cons_cons]
        exact hu)
      rw [List.cons_append] at this
      exact this

/-- The first character of a concatenation whose first block is the non-empty
`c`. -/
theorem flatten_head?_cons {c : Str} {t : List Str} (hc : c ≠ []) :
    (c :: t).flatten.head? = c.head? := by
  rw [List.flatten_cons]
  exact List.head?_append_of_ne_nil c hc

/-- No two adjacent spaces in the concatenation of an alternating word /
single-space chunk list. -/
theorem noTwoSpB_flatten : ∀ (l : List Str), (∀ c ∈ l, okChunk c) →
    List.Chain' chunkRel l → noTwoSpB l.flatten = true := by
  intro l
  induction l with
  | nil => intro _ _; rfl
  | cons c t ih =>
    intro hm hch
    rw [List.flatten_cons]
    have hmt : ∀ x ∈ t, okChunk x := fun x hx => hm x (List.mem_cons_of_mem c hx)
    refine noTwoSpB_append ?_ (ih hmt hch.tail) ?_
    · rcases hm c (List.mem_cons_self c t) with hw | he
      · exact noTwoSpB_of_no_space hw.2
      · rw [he]; rfl
    · intro x hx y hy
      rcases hm c (List.mem_cons_self c t) with hw | he
      · intro ⟨hx', _⟩
        have := hw.2 x (mem_of_getLast?_eq hx)
        rw [hx', pySpace_space] at this
        cases this
      · subst he
        cases t with
        | nil => rw [List.flatten_nil, List.head?_nil] at hy; cases hy
        | cons c2 t2 =>
          have hc2 : okChunk c2 := hmt c2 (List.mem_cons_self c2 t2)
          have hrel : chunkRel [' '] c2 := (List.chain'_cons'.mp hch).1 c2 (by simp)
          have hc2w : isWord c2 := by
            rcases hc2 with hw2 | he2
            · exact hw2
            · exact absurd he2 (hrel rfl)
          rw [flatten_head?_cons hc2w.1] at hy
          intro ⟨_, hy'⟩
          obtain ⟨a, u, hau⟩ := List.exists_cons_of_ne_nil hc2w.1
          rw [hau, List.head?_cons] at hy
          have hay : a = y := by simpa using hy
          subst hay
          have := hc2w.2 a (by rw [hau]; exact List.mem_cons_self a u)
          rw [hy', pySpace_space] at this
          cases this

/-- Every character of such a concatenation is either non-whitespace or the
space character. -/
theorem flatten_chars_ok (l : List Str) (hm : ∀ c ∈ l, okChunk c) :
    l.flatten.all (fun ch => !(pySpace ch) || ch == ' ') = true := by
  rw [List.all_eq_true]
  intro ch hch
  obtain ⟨c, hc, hchc⟩ := List.mem_flatten.mp hch
  rcases hm c hc with hw | he
  · rw [hw.2 ch hchc]; rfl
  · subst he
    rw [List.mem_singleton.mp hchc]
    rfl

/-- The concatenation of a non-empty alternating chunk list headed by a word
is a clean chunk. -/
theorem CleanChunkB_flatten (l : List Str) (hm : ∀ c ∈ l, okChunk c)
    (hch : List.Chain' chunkRel l) (hne : l ≠ [])
    (hhd : ∀ c ∈ l.head?, isWord c) : CleanChunkB l.flatten = true := by
  obtain ⟨c, t, he⟩ := List.exists_cons_of_ne_nil hne
  subst he
  have hcw : isWord c := hhd c (by simp)
  obtain ⟨a, u, hcu⟩ := List.exists_cons_of_ne_nil hcw.1
  have hh : (c :: t).flatten.head? = some a := by
    rw [flatten_head?_cons hcw.1, hcu, List.head?_cons]
  unfold CleanChunkB
  rw [Bool.and_eq_true, Bool.and_eq_true, Bool.and_eq_true]
  refine ⟨⟨⟨?_, ?_⟩, ?_⟩, ?_⟩
  · cases hfl : (c :: t).flatten with
    | nil => rw [hfl] at hh; cases hh
    | cons _ _ => rfl
  · rw [hh]
    have := hcw.2 a (by rw [hcu]; exact List.mem_cons_self a u)
    simp [this]
  · exact noTwoSpB_flatten (c :: t) hm hch
  · exact flatten_chars_ok (c :: t) hm

/-- Emitting a line from an invariant-satisfying current-line list yields a
clean chunk within the width. -/
theorem line_emit_ok {width : Nat} (cur3 : List Str) (h1 : ∀ c ∈ cur3, okChunk c)
    (h2 : List.Chain' chunkRel cur3) (h3 : cur3 ≠ [])
    (h4 : ∀ c ∈ cur3.head?, isWord c) (hlen : lenSum cur3 ≤ width) :
    CleanChunkB cur3.flatten = true ∧ cur3.flatten.length ≤ width := by
  refine ⟨CleanChunkB_flatten cur3 h1 h2 h3 h4, ?_⟩
  rw [length_flatten_eq_lenSum]
  exact hlen

theorem filterNS_append (a b : Str) : filterNS (a ++ b) = filterNS a ++ filterNS b :=
  List.filter_append a b

theorem dropLast_concat_self {α : Type} {l : List α} {x : α}
    (h : l.getLast? = some x) : l.dropLast ++ [x] = l :=
  List.dropLast_append_getLast? x h

/-- The trailing-whitespace drop keeps the line non-empty, invariant, headed
by a word, and no longer than before. -/
theorem dropTrailingBlank_ok (pre : List Str) (hok : okList pre)
    (hhd : ∀ c ∈ pre.head?, isWord c) (hne : pre ≠ []) :
    dropTrailingBlank pre ≠ [] ∧ okList (dropTrailingBlank pre) ∧
      (∀ c ∈ (dropTrailingBlank pre).head?, isWord c) ∧
      lenSum (dropTrailingBlank pre) ≤ lenSum pre := by
  unfold dropTrailingBlank
  cases hgl : pre.getLast? with
  | none => exact ⟨hne, hok, hhd, Nat.le_refl _⟩
  | some lc =>
    dsimp only
    by_cases hbl : isBlank lc = true
    · rw [if_pos hbl]
      have hsplit : pre.dropLast ++ [lc] = pre := dropLast_concat_self hgl
      have hlc : lc = [' '] :=
        blank_okChunk_eq_space (hok.1 lc (mem_of_getLast?_eq hgl)) hbl
      have hdne : pre.dropLast ≠ [] := by
        intro hd0
        rw [hd0, List.nil_append] at hsplit
        have hw := hhd lc (by rw [← hsplit, List.head?_cons]; exact rfl)
        have := hw.2 ' ' (by rw [hlc]; exact List.mem_singleton.mpr rfl)
        rw [pySpace_space] at this
        cases this
      refine ⟨hdne, ?_, ?_, ?_⟩
      · exact okList_of_append_left (hsplit ▸ hok)
      · intro c hc
        refine hhd c ?_
        rw [← hsplit, List.head?_append_of_ne_nil _ hdne]
        exact hc
      · have : lenSum (pre.dropLast ++ [lc]) = lenSum pre := by rw [hsplit]
        rw [lenSum_append] at this
        omega
    · rw [if_neg hbl]
      exact ⟨hne, hok, hhd, Nat.le_refl _⟩

theorem finishLine_of_ne {cur2 rem2 : List Str} (h : dropTrailingBlank cur2 ≠ []) :
    finishLine cur2 rem2 = (some (dropTrailingBlank cur2).flatten, rem2) := by
  unfold finishLine
  cases hd : dropTrailingBlank cur2 with
  | nil => exact absurd hd h
  | cons a l => rfl

theorem finishLine_snd (cur2 rem2 : List Str) : (finishLine cur2 rem2).2 = rem2 := by
  unfold finishLine
  cases dropTrailingBlank cur2 <;> rfl

theorem filterNS_flatten_dropTrailingBlank (cur2 : List Str) :
    filterNS (dropTrailingBlank cur2).flatten = filterNS cur2.flatten := by
  unfold dropTrailingBlank
  cases hgl : cur2.getLast? with
  | none => rfl
  | some lc =>
    dsimp only
    by_cases hbl : isBlank lc = true
    · rw [if_pos hbl]
      have hsplit : cur2.dropLast ++ [lc] = cur2 := dropLast_concat_self hgl
      conv_rhs => rw [← hsplit]
      rw [List.flatten_append, filterNS_append]
      have : ([lc] : List Str).flatten = lc := by
        rw [List.flatten_cons, List.flatten_nil, List.append_nil]
      rw [this, filterNS_blank hbl, List.append_nil]
    · rw [if_neg hbl]

/-- Finishing a line preserves the non-whitespace characters: the emitted
line plus the leftover chunks carry the same content as the current line plus
the leftover chunks. -/
theorem finishLine_chars (cur2 rem2 : List Str) :
    filterNS (((finishLine cur2 rem2).1.getD []) ++ (finishLine cur2 rem2).2.flatten) =
      filterNS (cur2.flatten ++ rem2.flatten) := by
  have hdp := filterNS_flatten_dropTrailingBlank cur2
  unfold finishLine
  cases hd : dropTrailingBlank cur2 with
  | nil =>
    rw [hd, List.flatten_nil] at hdp
    rw [filterNS_append, filterNS_append, ← hdp]
    rfl
  | cons a l =>
    rw [hd] at hdp
    rw [filterNS_append, filterNS_append, ← hdp]
    rfl

theorem handleLongWord_join (w n : Nat) (c : Str) :
    (handleLongWord w n c).1 ++ (handleLongWord w n c).2 = c :=
  List.take_append_drop _ c

/-- Finishing a non-empty invariant-satisfying line emits a clean line within
the width. -/
theorem finishLine_emit (width : Nat) (pre rem2 : List Str)
    (hok : okList pre) (hhd : ∀ c ∈ pre.head?, isWord c) (hne : pre ≠ [])
    (hlen : lenSum pre ≤ width) :
    (∀ line ∈ (finishLine pre rem2).1, CleanChunkB line = true ∧ line.length ≤ width) ∧
    ((finishLine pre rem2).1).isSome = true := by
  obtain ⟨hd1, hd2, hd3, hd4⟩ := dropTrailingBlank_ok pre hok hhd hne
  rw [finishLine_of_ne hd1]
  constructor
  · intro line hline
    have hl : (dropTrailingBlank pre).flatten = line := by simpa using hline
    subst hl
    exact line_emit_ok (dropTrailingBlank pre) hd2.1 hd2.2 hd1 hd3 (hd4.trans hlen)
  · rfl

/-- One wrapper iteration on an invariant-satisfying chunk list headed by a
word: every emitted line is clean and fits the width, the leftover chunks
satisfy the invariant, and a line is always emitted when chunks remain. -/
theorem wrapStepCore_props (width : Nat) (hw : 1 ≤ width) (l : List Str)
    (hok : okList l) (hhd : ∀ c ∈ l.head?, isWord c) :
    (∀ line ∈ (wrapStepCore width l).1, CleanChunkB line = true ∧ line.length ≤ width) ∧
    okList (wrapStepCore width l).2 ∧
    (l ≠ [] → ((wrapStepCore width l).1).isSome = true) := by
  obtain ⟨pre, suf, hps, ht, hb, hs⟩ := takeLine_spec width l 0 []
  simp only [List.nil_append, Nat.zero_add] at ht
  have hlen : lenSum pre ≤ width := by
    have := hb (Nat.zero_le width)
    omega
  have hokpre : okList pre := okList_of_append_left (hps ▸ hok)
  have hoksuf : okList suf := okList_of_append_right (hps ▸ hok)
  have hhdpre : ∀ c ∈ pre.head?, isWord c := by
    intro c hc
    refine hhd c ?_
    rw [hps]
    cases pre with
    | nil => cases hc
    | cons p0 pt =>
      rw [List.head?_append_of_ne_nil _ (by simp)]
      exact hc
  unfold wrapStepCore
  rw [ht]
  cases suf with
  | nil =>
    dsimp only
    by_cases hne : pre = []
    · subst hne
      refine ⟨?_, ?_, ?_⟩
      · intro line hline
        cases hline
      · rw [finishLine_snd]
        exact okList_nil
      · intro hl
        rw [hps] at hl
        simp at hl
    · obtain ⟨hp1, hp2⟩ := finishLine_emit width pre [] hokpre hhdpre hne hlen
      exact ⟨hp1, by rw [finishLine_snd]; exact okList_nil, fun _ => hp2⟩
  | cons c rs =>
    dsimp only
    have hcok : okChunk c := hoksuf.1 c (List.mem_cons_self c rs)
    by_cases hlong : width < c.length
    · rw [if_pos hlong]
      have hcw : isWord c := by
        rcases hcok with hw' | he
        · exact hw'
        · rw [he] at hlong
          simp at hlong
          omega
      obtain ⟨e, heq, hel, he1⟩ := handleLongWord_spec width (lenSum pre) c hw
      rw [heq]
      dsimp only
      have hdr : isWord (c.drop e) := by
        constructor
        · intro h0
          have hld : c.length - e = 0 := by rw [← List.length_drop, h0]; rfl
          omega
        · intro ch hch
          exact hcw.2 ch (List.drop_subset e c hch)
      have hremok : okList (c.drop e :: rs) := by
        constructor
        · intro x hx
          rcases List.mem_cons.mp hx with hx | hx
          · subst hx; exact Or.inl hdr
          · exact hoksuf.1 x (List.mem_cons_of_mem c hx)
        · refine List.chain'_cons'.mpr ⟨?_, hoksuf.2.tail⟩
          intro y _ ha'
          exact absurd ha' (word_ne_space_chunk hdr)
      by_cases htk : c.take e = []
      · have hcne : c ≠ [] := by
          intro h0'
          rw [h0'] at hlong
          simp at hlong
        have hpne : pre ≠ [] := by
          intro h0
          have he1' : 1 ≤ e := by
            apply he1
            rw [h0, lenSum_nil]
          obtain ⟨ch, ct, hc'⟩ := List.exists_cons_of_ne_nil hcne
          obtain ⟨e', he'⟩ := Nat.exists_eq_succ_of_ne_zero (by omega : e ≠ 0)
          rw [hc', he', List.take_succ_cons] at htk
          cases htk
        have hdtb : dropTrailingBlank (pre ++ [c.take e]) = pre := by
          rw [htk]
          unfold dropTrailingBlank
          rw [List.getLast?_concat]
          dsimp only
          rw [if_pos isBlank_nil, List.dropLast_concat]
        have h1 := @finishLine_of_ne (pre ++ [c.take e]) (c.drop e :: rs)
          (by rw [hdtb]; exact hpne)
        rw [h1, hdtb]
        refine ⟨?_, hremok, fun _ => rfl⟩
        intro line hline
        have hl : pre.flatten = line := by simpa using hline
        subst hl
        exact line_emit_ok pre hokpre.1 hokpre.2 hpne hhdpre hlen
      · have htkw : isWord (c.take e) :=
          ⟨htk, fun ch hch => hcw.2 ch (List.take_subset e c hch)⟩
        have hok2 : okList (pre ++ [c.take e]) := okList_concat_word hokpre htkw
        have hhd2 : ∀ x ∈ (pre ++ [c.take e]).head?, isWord x := by
          cases pre with
          | nil =>
            intro x hx
            simp at hx
            subst hx
            exact htkw
          | cons p0 pt =>
            intro x hx
            rw [List.head?_append_of_ne_nil _ (by simp)] at hx
            exact hhdpre x hx
        have hlen2 : lenSum (pre ++ [c.take e]) ≤ width := by
          rw [lenSum_append, lenSum_cons, lenSum_nil]
          have h1 : (c.take e).length ≤ e := by
            rw [List.length_take]
            exact min_le_left _ _
          omega
        obtain ⟨hp1, hp2⟩ := finishLine_emit width (pre ++ [c.take e]) (c.drop e :: rs)
          hok2 hhd2 (by simp) hlen2
        exact ⟨hp1, by rw [finishLine_snd]; exact hremok, fun _ => hp2⟩
    · rw [if_neg hlong]
      have hpne : pre ≠ [] := by
        intro h0
        have := hs c (by rw [List.head?_cons]; exact rfl)
        rw [h0, lenSum_nil] at this
        omega
      obtain ⟨hp1, hp2⟩ := finishLine_emit width pre (c :: rs) hokpre hhdpre hpne hlen
      exact ⟨hp1, by rw [finishLine_snd]; exact hoksuf, fun _ => hp2⟩

/-- One wrapper iteration strictly shrinks the chunk measure. -/
theorem wrapStepCore_measure (width : Nat) (hw : 1 ≤ width) (l : List Str)
    (hl : l ≠ []) : chMeasure (wrapStepCore width l).2 < chMeasure l := by
  obtain ⟨pre, suf, hps, ht, hb, hs⟩ := takeLine_spec width l 0 []
  simp only [List.nil_append, Nat.zero_add] at ht
  have hml : chMeasure l = chMeasure pre + chMeasure suf := by
    rw [hps, chMeasure_append]
  unfold wrapStepCore
  rw [ht]
  cases suf with
  | nil =>
    dsimp only
    rw [finishLine_snd, chMeasure_nil]
    have := chMeasure_pos hl
    omega
  | cons c rs =>
    dsimp only
    by_cases hlong : width < c.length
    · rw [if_pos hlong]
      obtain ⟨e, heq, hel, he1⟩ := handleLongWord_spec width (lenSum pre) c hw
      rw [heq]
      dsimp only
      rw [finishLine_snd, chMeasure_cons, List.length_drop]
      rw [chMeasure_cons] at hml
      by_cases hpre : pre = []
      · have he1' : 1 ≤ e := by
          apply he1
          rw [hpre, lenSum_nil]
        omega
      · have := chMeasure_pos hpre
        omega
    · rw [if_neg hlong]
      rw [finishLine_snd]
      have hpne : pre ≠ [] := by
        intro h0
        have := hs c (by rw [List.head?_cons]; exact rfl)
        rw [h0, lenSum_nil] at this
        omega
      have := chMeasure_pos hpne
      omega

/-- One wrapper iteration preserves the non-whitespace characters: the
emitted line (if any) followed by the leftover chunks carries the same
content as the input chunks. -/
theorem wrapStepCore_chars (width : Nat) (l : List Str) :
    filterNS (((wrapStepCore width l).1.getD []) ++ ((wrapStepCore width l).2).flatten) =
      filterNS l.flatten := by
  obtain ⟨pre, suf, hps, ht, hb, hs⟩ := takeLine_spec width l 0 []
  simp only [List.nil_append, Nat.zero_add] at ht
  unfold wrapStepCore
  rw [ht]
  cases suf with
  | nil =>
    dsimp only
    rw [finishLine_chars pre [], hps]
    simp [List.flatten_append]
  | cons c rs =>
    dsimp only
    by_cases hlong : width < c.length
    · rw [if_pos hlong]
      have hjoin := handleLongWord_join width (lenSum pre) c
      rw [finishLine_chars, hps]
      simp only [List.flatten_append, List.flatten_cons, List.flatten_nil,
        List.append_nil, List.append_assoc]
      rw [← List.append_assoc ((handleLongWord width (lenSum pre) c).1)
        ((handleLongWord width (lenSum pre) c).2), hjoin]
    · rw [if_neg hlong]
      rw [finishLine_chars, hps]
      simp [List.flatten_append]

theorem wrapStepCore_nil (width : Nat) : wrapStepCore width [] = (none, []) := rfl

/-- `wrapStep` preserves the invariant, emits only clean fitting lines, and
always emits before the first line has been produced. -/
theorem wrapStep_props (width : Nat) (hw : 1 ≤ width) (hl : Bool) (chunks : List Str)
    (hok : okList chunks) (hhd : hl = false → ∀ c ∈ chunks.head?, isWord c) :
    (∀ line ∈ (wrapStep width hl chunks).1, CleanChunkB line = true ∧ line.length ≤ width) ∧
    okList (wrapStep width hl chunks).2 ∧
    (hl = false → chunks ≠ [] → ((wrapStep width hl chunks).1).isSome = true) := by
  cases chunks with
  | nil =>
    refine ⟨?_, okList_nil, ?_⟩
    · intro line hline
      cases hline
    · intro _ h
      exact absurd rfl h
  | cons c0 rest0 =>
    unfold wrapStep
    dsimp only
    by_cases hdrop : hl = true ∧ isBlank c0 = true
    · rw [if_pos (by exact ⟨hdrop.1, hdrop.2⟩)]
      have hc0 : c0 = [' '] :=
        blank_okChunk_eq_space (hok.1 c0 (List.mem_cons_self c0 rest0)) hdrop.2
      have hhd0 : ∀ c ∈ rest0.head?, isWord c := by
        intro c hc
        cases rest0 with
        | nil => cases hc
        | cons r1 rt =>
          rw [List.head?_cons] at hc
          have hr : r1 = c := by simpa using hc
          subst hr
          have hrel := (List.chain'_cons'.mp hok.2).1 r1 (by rw [List.head?_cons]; exact rfl)
          rcases hok.1 r1 (List.mem_cons_of_mem c0 (List.mem_cons_self r1 rt)) with hw1 | he1
          · exact hw1
          · rw [hc0] at hrel
            exact absurd he1 (hrel rfl)
      obtain ⟨h1, h2, _⟩ := wrapStepCore_props width hw rest0 (okList_tail hok) hhd0
      refine ⟨h1, h2, ?_⟩
      intro hlf _
      rw [hlf] at hdrop
      cases hdrop.1
    · rw [if_neg (by intro h; exact hdrop ⟨h.1, h.2⟩)]
      have hhd1 : ∀ c ∈ (c0 :: rest0).head?, isWord c := by
        intro c hc
        rw [List.head?_cons] at hc
        have hcc : c0 = c := by simpa using hc
        subst hcc
        cases hhl : hl with
        | false => exact hhd hhl c0 (by rw [List.head?_cons]; exact rfl)
        | true =>
          have hnb : ¬ isBlank c0 = true := by
            intro hb
            exact hdrop ⟨hhl, hb⟩
          rcases hok.1 c0 (List.mem_cons_self c0 rest0) with hw0 | he0
          · exact hw0
          · rw [he0] at hnb
            exact absurd rfl hnb
      obtain ⟨h1, h2, h3⟩ := wrapStepCore_props width hw (c0 :: rest0) hok hhd1
      exact ⟨h1, h2, fun _ _ => h3 (by simp)⟩

/-- `wrapStep` strictly shrinks the measure. -/
theorem wrapStep_measure (width : Nat) (hw : 1 ≤ width) (hl : Bool) (chunks : List Str)
    (hne : chunks ≠ []) : chMeasure (wrapStep width hl chunks).2 < chMeasure chunks := by
  cases chunks with
  | nil => exact absurd rfl hne
  | cons c0 rest0 =>
    unfold wrapStep
    dsimp only
    by_cases hdrop : hl = true ∧ isBlank c0 = true
    · rw [if_pos (by exact ⟨hdrop.1, hdrop.2⟩)]
      by_cases h0 : rest0 = []
      · subst h0
        rw [wrapStepCore_nil, chMeasure_cons]
        simp [chMeasure_nil]
      · have := wrapStepCore_measure width hw rest0 h0
        rw [chMeasure_cons]
        omega
    · rw [if_neg (by intro h; exact hdrop ⟨h.1, h.2⟩)]
      exact wrapStepCore_measure width hw (c0 :: rest0) (by simp)

/-- `wrapStep` preserves the non-whitespace characters. -/
theorem wrapStep_chars (width : Nat) (hl : Bool) (chunks : List Str) :
    filterNS (((wrapStep width hl chunks).1.getD []) ++ ((wrapStep width hl chunks).2).flatten) =
      filterNS chunks.flatten := by
  cases chunks with
  | nil => rfl
  | cons c0 rest0 =>
    unfold wrapStep
    dsimp only
    by_cases hdrop : hl = true ∧ isBlank c0 = true
    · rw [if_pos (by exact ⟨hdrop.1, hdrop.2⟩)]
      rw [wrapStepCore_chars]
      rw [List.flatten_cons, filterNS_append, filterNS_blank hdrop.2, List.nil_append]
    · rw [if_neg (by intro h; exact hdrop ⟨h.1, h.2⟩)]
      exact wrapStepCore_chars width (c0 :: rest0)

/-- Every line produced by the wrapping loop on an invariant-satisfying
chunk list (headed by a word while no line has been emitted) is clean and
fits the width. -/
theorem wrapLoopF_props (width : Nat) (hw : 1 ≤ width) :
    ∀ (fuel : Nat) (hl : Bool) (chunks : List Str),
      chMeasure chunks < fuel → okList chunks →
      (hl = false → ∀ c ∈ chunks.head?, isWord c) →
      ∀ line ∈ wrapLoopF width fuel hl chunks,
        CleanChunkB line = true ∧ line.length ≤ width := by
  intro fuel
  induction fuel with
  | zero =>
    intro hl chunks hf
    omega
  | succ f ih =>
    intro hl chunks hf hok hhd
    cases chunks with
    | nil =>
      intro line hline
      cases hline
    | cons c cs =>
      obtain ⟨h1, h2, h3⟩ := wrapStep_props width hw hl (c :: cs) hok hhd
      have hm := wrapStep_measure width hw hl (c :: cs) (by simp)
      rw [chMeasure_cons] at hf
      intro line hline
      rw [wrapLoopF] at hline
      cases hws : wrapStep width hl (c :: cs) with
      | mk o rest =>
        rw [hws] at hline h1 h2 hm
        rw [chMeasure_cons] at hm
        cases o with
        | some ln =>
          dsimp only at hline h1 h2 hm
          rcases List.mem_cons.mp hline with hline | hline
          · subst hline
            exact h1 line (by exact rfl)
          · exact ih true rest (by omega) h2 (by intro h; cases h) line hline
        | none =>
          dsimp only at hline h1 h2 hm
          cases hhl : hl with
          | false =>
            exfalso
            have hsome := h3 hhl (by simp)
            rw [hws] at hsome
            simp at hsome
          | true =>
            rw [hhl] at hline
            exact ih true rest (by omega) h2 (by intro h; cases h) line hline

/-- The wrapping loop preserves the non-whitespace characters. -/
theorem wrapLoopF_chars (width : Nat) (hw : 1 ≤ width) :
    ∀ (fuel : Nat) (hl : Bool) (chunks : List Str), chMeasure chunks < fuel →
      filterNS (wrapLoopF width fuel hl chunks).flatten = filterNS chunks.flatten := by
  intro fuel
  induction fuel with
  | zero =>
    intro hl chunks hf
    omega
  | succ f ih =>
    intro hl chunks hf
    cases chunks with
    | nil => rfl
    | cons c cs =>
      have hm := wrapStep_measure width hw hl (c :: cs) (by simp)
      have hch := wrapStep_chars width hl (c :: cs)
      rw [chMeasure_cons] at hf
      rw [wrapLoopF]
      cases hws : wrapStep width hl (c :: cs) with
      | mk o rest =>
        rw [hws] at hm hch
        rw [chMeasure_cons] at hm
        cases o with
        | some ln =>
          dsimp only at hm hch ⊢
          rw [Option.getD_some, filterNS_append] at hch
          rw [List.flatten_cons, filterNS_append, ih true rest (by omega), ← hch]
        | none =>
          dsimp only at hm hch ⊢
          rw [Option.getD_none, List.nil_append] at hch
          rw [ih hl rest (by omega)]
          exact hch

/-! ### The cleaning stage: words, joining, and chunk splitting -/

theorem filterNS_cons_t {c : Char} {s : Str} (h : pySpace c = true) :
    filterNS (c :: s) = filterNS s := by
  unfold filterNS
  rw [List.filter_cons]
  simp [h]

theorem filterNS_cons_f {c : Char} {s : Str} (h : pySpace c = false) :
    filterNS (c :: s) = c :: filterNS s := by
  unfold filterNS
  rw [List.filter_cons]
  simp [h]

theorem filterNS_of_nonspace {w : Str} (h : ∀ ch ∈ w, pySpace ch = false) :
    filterNS w = w := by
  unfold filterNS
  rw [List.filter_eq_self]
  intro ch hch
  rw [h ch hch]
  rfl

/-- Every piece produced by Python's `str.split()` is a word. -/
theorem pySplitGo_words : ∀ (s cur : Str), (∀ ch ∈ cur, pySpace ch = false) →
    ∀ w ∈ pySplitGo cur s, isWord w := by
  intro s
  induction s with
  | nil =>
    intro cur hc w hw
    rw [pySplitGo] at hw
    by_cases h0 : cur = []
    · rw [if_pos h0] at hw
      cases hw
    · rw [if_neg h0] at hw
      rw [List.mem_singleton.mp hw]
      exact ⟨h0, hc⟩
  | cons c rest ih =>
    intro cur hc w hw
    rw [pySplitGo] at hw
    by_cases hsp : pySpace c = true
    · rw [if_pos hsp] at hw
      by_cases h0 : cur = []
      · rw [if_pos h0] at hw
        exact ih [] (by intro ch h; cases h) w hw
      · rw [if_neg h0] at hw
        rcases List.mem_cons.mp hw with hw | hw
        · subst hw
          exact ⟨h0, hc⟩
        · exact ih [] (by intro ch h; cases h) w hw
    · rw [if_neg hsp] at hw
      refine ih (cur ++ [c]) ?_ w hw
      intro ch hch
      rcases List.mem_append.mp hch with h | h
      · exact hc ch h
      · rw [List.mem_singleton.mp h]
        exact Bool.eq_false_iff.mpr hsp

/-- `str.split()` keeps exactly the non-whitespace characters, in order. -/
theorem pySplitGo_flatten : ∀ (s cur : Str),
    (pySplitGo cur s).flatten = cur ++ filterNS s := by
  intro s
  induction s with
  | nil =>
    intro cur
    rw [pySplitGo]
    by_cases h0 : cur = []
    · rw [if_pos h0, h0]
      rfl
    · rw [if_neg h0]
      simp [filterNS]
  | cons c rest ih =>
    intro cur
    rw [pySplitGo]
    by_cases hsp : pySpace c = true
    · rw [if_pos hsp, filterNS_cons_t hsp]
      by_cases h0 : cur = []
      · rw [if_pos h0, h0, ih []]
      · rw [if_neg h0, List.flatten_cons, ih []]
        rfl
    · have hsp' : pySpace c = false := Bool.eq_false_iff.mpr hsp
      rw [if_neg hsp, filterNS_cons_f hsp', ih (cur ++ [c]), List.append_assoc,
        List.singleton_append]

theorem pySplit_words (s : Str) : ∀ w ∈ pySplit s, isWord w :=
  pySplitGo_words s [] (by intro ch h; cases h)

theorem pySplit_flatten (s : Str) : (pySplit s).flatten = filterNS s := by
  unfold pySplit
  rw [pySplitGo_flatten s []]
  rfl

/-- The single-space-interspersed word list satisfies the wrapper
invariant. -/
theorem okList_intersperse : ∀ (ws : List Str), (∀ w ∈ ws, isWord w) →
    okList (List.intersperse [' '] ws) := by
  intro ws
  induction ws with
  | nil => intro _; rw [List.intersperse_nil]; exact okList_nil
  | cons w t ih =>
    intro hws
    cases t with
    | nil =>
      rw [List.intersperse_singleton]
      constructor
      · intro c hc
        rw [List.mem_singleton.mp hc]
        exact Or.inl (hws w (List.mem_cons_self w []))
      · exact List.chain'_singleton w
    | cons w2 t2 =>
      rw [List.intersperse_cons_cons]
      have hw : isWord w := hws w (List.mem_cons_self w _)
      have hw2 : isWord w2 := hws w2 (List.mem_cons_of_mem w (List.mem_cons_self w2 t2))
      have iht := ih (fun x hx => hws x (List.mem_cons_of_mem w hx))
      constructor
      · intro c hc
        rcases List.mem_cons.mp hc with hc | hc
        · subst hc; exact Or.inl hw
        · rcases List.mem_cons.mp hc with hc | hc
          · subst hc; exact Or.inr rfl
          · exact iht.1 c hc
      · refine List.chain'_cons'.mpr ⟨?_, ?_⟩
        · intro y _ he
          exact absurd he (word_ne_space_chunk hw)
        · refine List.chain'_cons'.mpr ⟨?_, iht.2⟩
          intro y hy _
          have hhd : (List.intersperse [' '] (w2 :: t2)).head? = some w2 := by
            cases t2 with
            | nil => rw [List.intersperse_singleton, List.head?_cons]
            | cons w3 t3 => rw [List.intersperse_cons_cons, List.head?_cons]
          rw [hhd] at hy
          have hy2 : w2 = y := by simpa using hy
          subst hy2
          exact word_ne_space_chunk hw2

theorem head?_intersperse_sp (ws : List Str) :
    (List.intersperse [' '] ws).head? = ws.head? := by
  cases ws with
  | nil => rfl
  | cons w t =>
    cases t with
    | nil => rw [List.intersperse_singleton]
    | cons w2 t2 => rw [List.intersperse_cons_cons, List.head?_cons, List.head?_cons]

/-- Filtering the joined, space-interspersed word list recovers the joined
words. -/
theorem filterNS_flatten_intersperse : ∀ (ws : List Str),
    (∀ w ∈ ws, ∀ ch ∈ w, pySpace ch = false) →
    filterNS (List.intersperse [' '] ws).flatten = ws.flatten := by
  intro ws
  induction ws with
  | nil => intro _; rfl
  | cons w t ih =>
    intro hws
    cases t with
    | nil =>
      simp only [List.intersperse_singleton, List.flatten_cons, List.flatten_nil,
        List.append_nil]
      exact filterNS_of_nonspace (hws w (List.mem_cons_self w []))
    | cons w2 t2 =>
      simp only [List.intersperse_cons_cons, List.flatten_cons, filterNS_append]
      rw [filterNS_of_nonspace (hws w (List.mem_cons_self w _)),
        show filterNS [' '] = [] from rfl, List.nil_append,
        ih (fun x hx => hws x (List.mem_cons_of_mem w hx)), List.flatten_cons]

/-- Words glued with single spaces split back into the same chunks. -/
theorem splitChunksGo_run : ∀ (w : Str) (k : Bool) (cur : Str) (t : Str),
    (∀ ch ∈ w, pySpace ch = k) →
    splitChunksGo k cur (w ++ t) = splitChunksGo k (cur ++ w) t := by
  intro w
  induction w with
  | nil =>
    intro k cur t _
    rw [List.nil_append, List.append_nil]
  | cons ch w' ih =>
    intro k cur t hw
    rw [List.cons_append, splitChunksGo, if_pos (hw ch (List.mem_cons_self ch w'))]
    rw [ih k (cur ++ [ch]) t (fun x hx => hw x (List.mem_cons_of_mem ch hx))]
    rw [List.append_assoc, List.singleton_append]

theorem splitChunksGo_flatten : ∀ (s : Str) (k : Bool) (cur : Str),
    (splitChunksGo k cur s).flatten = cur ++ s := by
  intro s
  induction s with
  | nil =>
    intro k cur
    rw [splitChunksGo, List.flatten_cons, List.flatten_nil, List.append_nil]
  | cons c rest ih =>
    intro k cur
    rw [splitChunksGo]
    by_cases h : pySpace c = k
    · rw [if_pos h, ih, List.append_assoc, List.singleton_append]
    · rw [if_neg h, List.flatten_cons, ih, List.singleton_append]

/-- Splitting a text into chunks loses nothing. -/
theorem splitChunks_flatten (s : Str) : (splitChunks s).flatten = s := by
  cases s with
  | nil => rfl
  | cons c rest =>
    rw [splitChunks, splitChunksGo_flatten, List.singleton_append]

theorem splitChunksGo_cons (k : Bool) (cur : Str) (c : Char) (rest : Str) :
    splitChunksGo k cur (c :: rest) =
      if pySpace c = k then splitChunksGo k (cur ++ [c]) rest
      else cur :: splitChunksGo (pySpace c) [c] rest := rfl

theorem splitChunks_cons (c : Char) (rest : Str) :
    splitChunks (c :: rest) = splitChunksGo (pySpace c) [c] rest := rfl

/-- The chunk splitter recovers exactly the interspersed word/space list from
a single-space-joined word list. -/
theorem splitChunks_intersperse : ∀ (ws : List Str), (∀ w ∈ ws, isWord w) →
    splitChunks (List.intersperse [' '] ws).flatten = List.intersperse [' '] ws := by
  intro ws
  induction ws with
  | nil => intro _; rfl
  | cons w t ih =>
    intro hws
    have hw : isWord w := hws w (List.mem_cons_self w t)
    obtain ⟨ch, w', hwc⟩ := List.exists_cons_of_ne_nil hw.1
    have hchf : pySpace ch = false := hw.2 ch (by rw [hwc]; exact List.mem_cons_self ch w')
    have hwall : ∀ x ∈ w', pySpace x = false := by
      intro x hx
      exact hw.2 x (by rw [hwc]; exact List.mem_cons_of_mem ch hx)
    cases t with
    | nil =>
      rw [List.intersperse_singleton, List.flatten_cons, List.flatten_nil,
        List.append_nil, hwc, splitChunks_cons, hchf]
      have h1 : (w' : Str) = w' ++ [] := (List.append_nil w').symm
      rw [h1, splitChunksGo_run w' false [ch] [] hwall, splitChunksGo]
      rw [List.singleton_append, List.append_nil, ← hwc]
    | cons w2 t2 =>
      have hw2 : isWord w2 := hws w2 (List.mem_cons_of_mem w (List.mem_cons_self w2 t2))
      obtain ⟨ch2, w2', hw2c⟩ := List.exists_cons_of_ne_nil hw2.1
      have hch2f : pySpace ch2 = false :=
        hw2.2 ch2 (by rw [hw2c]; exact List.mem_cons_self ch2 w2')
      have iht := ih (fun x hx => hws x (List.mem_cons_of_mem w hx))
      obtain ⟨Z, hZ⟩ : ∃ Z, (List.intersperse [' '] (w2 :: t2)).flatten = w2 ++ Z := by
        cases t2 with
        | nil =>
          refine ⟨[], ?_⟩
          rw [List.intersperse_singleton, List.flatten_cons, List.flatten_nil]
        | cons w3 t3 =>
          refine ⟨[' '] ++ (List.intersperse [' '] (w3 :: t3)).flatten, ?_⟩
          rw [List.intersperse_cons_cons, List.flatten_cons, List.flatten_cons]
      have hX : (List.intersperse [' '] (w2 :: t2)).flatten = ch2 :: (w2' ++ Z) := by
        rw [hZ, hw2c, List.cons_append]
      have hIH : splitChunksGo false [ch2] (w2' ++ Z) = List.intersperse [' '] (w2 :: t2) := by
        rw [← hch2f, ← splitChunks_cons, ← hX]
        exact iht
      rw [List.intersperse_cons_cons, List.flatten_cons, List.flatten_cons, hwc,
        List.cons_append, splitChunks_cons, hchf, List.singleton_append,
        splitChunksGo_run w' false [ch] _ hwall, List.singleton_append, ← hwc]
      rw [splitChunksGo_cons]
      rw [if_neg (by rw [pySpace_space]; intro h; cases h)]
      rw [hX, splitChunksGo_cons]
      rw [if_neg (by rw [hch2f]; intro h; cases h)]
      rw [hch2f, hIH]

/-! ### The chunker end to end -/

theorem cleanedOf_eq_flatten (para : Str) :
    cleanedOf para = (List.intersperse [' '] (pySplit para)).flatten := rfl

theorem filterNS_cleanedOf (para : Str) : filterNS (cleanedOf para) = filterNS para := by
  rw [cleanedOf_eq_flatten,
    filterNS_flatten_intersperse (pySplit para) (fun w hw => (pySplit_words para w hw).2),
    pySplit_flatten]

theorem pySplit_ne_nil_of_cleaned {para : Str} (h : cleanedOf para ≠ []) :
    pySplit para ≠ [] := by
  intro h0
  rw [cleanedOf_eq_flatten, h0] at h
  exact h rfl

/-- Every line produced by wrapping a non-empty cleaned paragraph is clean
and at most 500 characters long. -/
theorem textwrapWrap_clean (para : Str) (h : cleanedOf para ≠ []) :
    ∀ line ∈ textwrapWrap (cleanedOf para) 500,
      CleanChunkB line = true ∧ line.length ≤ 500 := by
  have hws := pySplit_words para
  have hsc : splitChunks (cleanedOf para) = List.intersperse [' '] (pySplit para) := by
    rw [cleanedOf_eq_flatten]
    exact splitChunks_intersperse (pySplit para) hws
  unfold textwrapWrap
  rw [hsc]
  refine wrapLoopF_props 500 (by omega) _ false _ ?_ ?_ ?_
  · rw [← hsc]
    omega
  · exact okList_intersperse (pySplit para) hws
  · intro _ c hc
    rw [head?_intersperse_sp] at hc
    obtain ⟨w0, t0, hw0⟩ := List.exists_cons_of_ne_nil (pySplit_ne_nil_of_cleaned h)
    rw [hw0, List.head?_cons] at hc
    have : w0 = c := by simpa using hc
    subst this
    exact hws w0 (by rw [hw0]; exact List.mem_cons_self w0 t0)

/-- Wrapping preserves the non-whitespace characters of the paragraph. -/
theorem textwrapWrap_chars (para : Str) :
    filterNS (textwrapWrap (cleanedOf para) 500).flatten = filterNS para := by
  unfold textwrapWrap
  rw [wrapLoopF_chars 500 (by omega) _ false _ (by omega)]
  rw [splitChunks_flatten]
  exact filterNS_cleanedOf para

/-- The cleaned paragraph itself (used when it is short) is a clean chunk. -/
theorem cleanedOf_clean (para : Str) (h : cleanedOf para ≠ []) :
    CleanChunkB (cleanedOf para) = true := by
  have hws := pySplit_words para
  rw [cleanedOf_eq_flatten]
  refine CleanChunkB_flatten _ (okList_intersperse (pySplit para) hws).1
    (okList_intersperse (pySplit para) hws).2 ?_ ?_
  · intro h0
    rw [cleanedOf_eq_flatten, h0] at h
    exact h rfl
  · intro c hc
    rw [head?_intersperse_sp] at hc
    obtain ⟨w0, t0, hw0⟩ := List.exists_cons_of_ne_nil (pySplit_ne_nil_of_cleaned h)
    rw [hw0, List.head?_cons] at hc
    have : w0 = c := by simpa using hc
    subst this
    exact hws w0 (by rw [hw0]; exact List.mem_cons_self w0 t0)

/-- Every chunk of a paragraph is clean and at most 500 characters long. -/
theorem chunkPara_clean (para : Str) :
    ∀ c ∈ chunkPara para, CleanChunkB c = true ∧ c.length ≤ 500 := by
  intro c hc
  unfold chunkPara at hc
  by_cases h0 : cleanedOf para = []
  · rw [if_pos h0] at hc
    cases hc
  · rw [if_neg h0] at hc
    by_cases hlong : 500 < (cleanedOf para).length
    · rw [if_pos hlong] at hc
      exact textwrapWrap_clean para h0 c hc
    · rw [if_neg hlong] at hc
      rw [List.mem_singleton.mp hc]
      exact ⟨cleanedOf_clean para h0, by omega⟩

/-- Chunking a paragraph preserves its non-whitespace characters. -/
theorem chunkPara_chars (para : Str) :
    filterNS (chunkPara para).flatten = filterNS para := by
  unfold chunkPara
  by_cases h0 : cleanedOf para = []
  · rw [if_pos h0]
    rw [← filterNS_cleanedOf para, h0]
    rfl
  · rw [if_neg h0]
    by_cases hlong : 500 < (cleanedOf para).length
    · rw [if_pos hlong]
      exact textwrapWrap_chars para
    · rw [if_neg hlong]
      rw [List.flatten_cons, List.flatten_nil, List.append_nil]
      exact filterNS_cleanedOf para

theorem splitParasGo_ne_nil : ∀ (s cur : Str), splitParasGo cur s ≠ [] := by
  intro s
  induction s with
  | nil =>
    intro cur
    rw [splitParasGo.eq_1]
    simp
  | cons c rest ih =>
    intro cur h
    rcases List.exists_cons_of_ne_nil (l := c :: rest) (by simp) with _
    by_cases hc : c = '\n'
    · cases rest with
      | nil =>
        rw [splitParasGo.eq_3 cur c [] (by intro r1 _ hr; cases hr)] at h
        exact ih (cur ++ [c]) h
      | cons c2 rest2 =>
        by_cases hc2 : c2 = '\n'
        · subst hc
          subst hc2
          rw [splitParasGo.eq_2] at h
          cases h
        · rw [splitParasGo.eq_3 cur c (c2 :: rest2)
            (by intro r1 _ hr; injection hr with h1 _; exact hc2 h1)] at h
          exact ih (cur ++ [c]) h
    · rw [splitParasGo.eq_3 cur c rest (by intro r1 hcc _; exact hc hcc)] at h
      exact ih (cur ++ [c]) h

theorem intercalate_cons_cons {α : Type} (sep x y : List α) (t : List (List α)) :
    List.intercalate sep (x :: y :: t) = x ++ sep ++ List.intercalate sep (y :: t) := by
  show (List.intersperse sep (x :: y :: t)).flatten = _
  rw [List.intersperse_cons_cons, List.flatten_cons, List.flatten_cons,
    List.append_assoc]
  rfl

/-- The paragraphs of a document, rejoined on the separator, give back the
document: `doc.split('\n\n')` loses nothing. -/
theorem splitParasGo_reconstruct : ∀ (cur s : Str),
    List.intercalate ['\n', '\n'] (splitParasGo cur s) = cur ++ s := by
  intro cur s
  induction cur, s using splitParasGo.induct with
  | case1 cur =>
    rw [splitParasGo.eq_1]
    show (List.intersperse _ [cur]).flatten = cur ++ []
    rw [List.intersperse_singleton, List.flatten_cons, List.flatten_nil]
  | case2 cur rest ih =>
    rw [splitParasGo.eq_2]
    obtain ⟨p, ps, hp⟩ := List.exists_cons_of_ne_nil (splitParasGo_ne_nil rest [])
    rw [hp, intercalate_cons_cons, ← hp, ih, List.nil_append, List.append_assoc]
    rfl
  | case3 cur c rest hne ih =>
    rw [splitParasGo.eq_3 cur c rest hne, ih, List.append_assoc, List.singleton_append]

theorem splitParas_reconstruct (doc : Str) :
    List.intercalate ['\n', '\n'] (splitParas doc) = doc := by
  unfold splitParas
  rw [splitParasGo_reconstruct, List.nil_append]

/-- Filtering through an all-whitespace separator: the non-whitespace
characters of the joined list are those of the pieces. -/
theorem filterNS_intercalate_blank : ∀ (xs : List Str),
    filterNS (List.intercalate ['\n', '\n'] xs) = (xs.map filterNS).flatten := by
  intro xs
  induction xs with
  | nil => rfl
  | cons x t ih =>
    cases t with
    | nil =>
      show filterNS (List.intersperse _ [x]).flatten = _
      rw [List.intersperse_singleton, List.flatten_cons, List.flatten_nil,
        List.append_nil, List.map_cons, List.map_nil, List.flatten_cons,
        List.flatten_nil, List.append_nil]
    | cons y u =>
      rw [intercalate_cons_cons, filterNS_append, filterNS_append, ih,
        List.map_cons, List.flatten_cons]
      rw [show filterNS ['\n', '\n'] = [] from rfl, List.append_nil]
      rw [List.map_cons, List.flatten_cons, List.map_cons, List.flatten_cons]

/-- Every chunk of a document is clean and at most 500 characters long. -/
theorem chunkDoc_clean (doc : Str) :
    ∀ c ∈ chunkDoc doc, CleanChunkB c = true ∧ c.length ≤ 500 := by
  intro c hc
  unfold chunkDoc at hc
  obtain ⟨l, hl, hcl⟩ := List.mem_flatten.mp hc
  obtain ⟨para, _, hpl⟩ := List.mem_map.mp hl
  subst hpl
  exact chunkPara_clean para c hcl

/-- Chunking a document preserves its non-whitespace characters. -/
theorem chunkDoc_chars (doc : Str) :
    filterNS (chunkDoc doc).flatten = filterNS doc := by
  unfold chunkDoc
  have h1 : ∀ (ps : List Str),
      filterNS ((ps.map chunkPara).flatten).flatten = (ps.map filterNS).flatten := by
    intro ps
    induction ps with
    | nil => rfl
    | cons p pt ih =>
      rw [List.map_cons, List.flatten_cons, List.flatten_append, filterNS_append, ih,
        List.map_cons, List.flatten_cons, chunkPara_chars]
  rw [h1, ← filterNS_intercalate_blank, splitParas_reconstruct]

/-- Every chunk produced by `load_documents` is clean and at most 500
characters long. -/
theorem chunkDocs_clean (docs : List Str) :
    ∀ c ∈ chunkDocs docs, CleanChunkB c = true ∧ c.length ≤ 500 := by
  intro c hc
  unfold chunkDocs at hc
  obtain ⟨l, hl, hcl⟩ := List.mem_flatten.mp hc
  obtain ⟨doc, _, hdl⟩ := List.mem_map.mp hl
  subst hdl
  exact chunkDoc_clean doc c hcl

/-- `load_documents` preserves the non-whitespace characters of the
documents. -/
theorem chunkDocs_chars (docs : List Str) :
    filterNS (chunkDocs docs).flatten = filterNS docs.flatten := by
  unfold chunkDocs
  induction docs with
  | nil => rfl
  | cons d dt ih =>
    rw [List.map_cons, List.flatten_cons, List.flatten_append, filterNS_append, ih,
      List.flatten_cons, filterNS_append, chunkDoc_chars]

/-! ### Remaining retrieval lemmas -/

/-- A successful `retrieve` only ever returns stored chunks. -/
theorem retrieve_ok_mem {s : SimpleRAG} {q : Str} {k : Nat} {rs : List RankedResult}
    (h : s.retrieve q k = .ok rs) : ∀ r ∈ rs, r.chunk ∈ s.chunks := by
  unfold SimpleRAG.retrieve at h
  cases hI : s.index with
  | none =>
    rw [hI] at h
    cases h
    intro r hr
    cases hr
  | some I =>
    rw [hI] at h
    dsimp only at h
    by_cases hd : (s.model q).length = I.d
    · rw [if_pos hd] at h
      exact (formatResults_ok _ 0 rs h).2.2
    · rw [if_neg hd] at h
      cases h

/-! ### Concrete inputs for the chunker theorems -/

/-- A short word followed by a 501-character word: 504 characters, so the
paragraph is wrapped. -/
def cexC2 : Str := String.toList "aa " ++ List.replicate 501 'x'

/-- A 499-character word, a space, and a 501-character word: the space falls
exactly at the width boundary. -/
def cexC6 : Str := List.replicate 499 'x' ++ [' '] ++ List.replicate 501 'y'

/-! ### The claims -/

set_option maxRecDepth 40000

unseal Rat.mul Rat.sub Rat.add in
/-- C1: the claim says `retrieve` returns exactly `min(k, |corpus|)` results.
The code does not clamp: FAISS returns `k` slots, padding the surplus with id
`-1` and distance `FLT_MAX`, and Python's `chunks[-1]` silently maps the
padding id to the LAST chunk.  On the one-chunk corpus `["Python"]` with
`k = 2`, `retrieve` returns 2 results — the claimed length is
`min 2 1 = 1` — the second being a duplicate of the last chunk with the
sentinel score `2^128 - 2^104`. -/
theorem retrieve_k_exceeds_corpus_returns_k_results :
    ragPy.retrieve (String.toList "q") 2 =
      Except.ok [{ chunk := String.toList "Python", score := 25, rank := 1 },
        { chunk := String.toList "Python", score := FLT_MAX, rank := 2 }] ∧
    min 2 ragPy.chunks.length = 1 := by
  constructor
  · decide
  · decide

/-- C2 counterexample: on the document "aa " followed by 501 `x`s, the
501-character word is split mid-word at position 497/4 to fill the first line
after "aa", although an earlier break point (the space after "aa") exists:
the chunker emits "aa xxx…x" (500 characters) and "xxxx", and the fragment
"xxxx" is not a word of the input.  This falsifies the claim that a word is
never split mid-word when an earlier break point exists. -/
theorem chunk_splits_long_word_despite_break_point :
    pySplit cexC2 = [String.toList "aa", List.replicate 501 'x'] ∧
    chunkDocs [cexC2] =
      [String.toList "aa " ++ List.replicate 497 'x', List.replicate 4 'x'] ∧
    ¬ List.replicate 4 'x' ∈ pySplit cexC2 := by
  refine ⟨by decide, by decide, by decide⟩

/-- C2 (amended): for every input, every chunk produced by the chunker has
length at most 500 unconditionally — `textwrap.wrap`'s
`break_long_words=True` splits words longer than the budget mid-word to fill
each line exactly, even when an earlier break point exists. -/
theorem chunk_length_le_500 (docs : List Str) (c : Str) (h : c ∈ chunkDocs docs) :
    c.length ≤ 500 :=
  (chunkDocs_clean docs c h).2

theorem chunk_length_le_500_witness :
    String.toList "hi" ∈ chunkDocs [String.toList "hi"] ∧
    (String.toList "hi").length ≤ 500 :=
  ⟨by decide, chunk_length_le_500 [String.toList "hi"] (String.toList "hi") (by decide)⟩

unseal Rat.mul Rat.sub Rat.add in
/-- C3 counterexample: starting from the corpus `["A"]` (one chunk, one
embedding), the add-documents action with the document set `[""]` chunks to
nothing, so `build_index` returns early: afterwards the corpus is empty but
the embedding count is still 1 and the old index object is still installed —
the corpus is NOT fully replaced and the claimed invariant
`corpus length = embedding count` fails. -/
theorem replace_with_empty_chunks_keeps_old_index :
    ragA.chunks = [String.toList "A"] ∧
    ragA2.chunks.length = 0 ∧
    embCount ragA2 = 1 ∧
    ragA2.index = some { d := 1, xb := [[1]] } := by
  refine ⟨by decide, by decide, by decide, by decide⟩

/-- C3 (amended): for every starting state, the add-documents action with a
document set that chunks to AT LEAST ONE passage fully replaces the corpus:
the chunk list afterwards is exactly the new chunks, the embedding count
equals the corpus length, and every chunk of any successful subsequent
retrieval belongs to the new chunk list (so no removed passage of the
previous corpus can appear). -/
theorem replace_nonempty_fully_replaces (s : SimpleRAG) (docs : List Str) (q : Str)
    (k : Nat) (rs : List RankedResult) (hne : chunkDocs docs ≠ [])
    (hok : ((s.load_documents docs).build_index).retrieve q k = .ok rs) :
    ((s.load_documents docs).build_index).chunks = chunkDocs docs ∧
    embCount ((s.load_documents docs).build_index) = (chunkDocs docs).length ∧
    ∀ r ∈ rs, r.chunk ∈ chunkDocs docs := by
  obtain ⟨c0, cs, hcc⟩ := List.exists_cons_of_ne_nil hne
  have hb : (s.load_documents docs).build_index =
      { model := s.model, chunks := chunkDocs docs,
        index := some { d := (s.model c0).length,
                        xb := (chunkDocs docs).map s.model } } := by
    unfold SimpleRAG.build_index SimpleRAG.load_documents
    dsimp only
    rw [hcc]
  refine ⟨by rw [hb], ?_, ?_⟩
  · rw [hb]
    unfold embCount
    dsimp only
    exact List.length_map _ _
  · intro r hr
    have hm := retrieve_ok_mem hok r hr
    rw [hb] at hm
    exact hm

unseal Rat.mul Rat.sub Rat.add in
theorem replace_nonempty_fully_replaces_witness :
    chunkDocs [String.toList "A"] ≠ [] ∧
    ragA.chunks = chunkDocs [String.toList "A"] ∧
    embCount ragA = (chunkDocs [String.toList "A"]).length := by
  have h := replace_nonempty_fully_replaces (SimpleRAG.init m0) [String.toList "A"]
    (String.toList "q") 1 [{ chunk := String.toList "A", score := 0, rank := 1 }]
    (by decide) (by decide)
  exact ⟨by decide, h.1, h.2.1⟩

/-- C4: with no index installed (no documents indexed), `retrieve` returns
the empty sequence for every query and every `k`, not an error. -/
theorem retrieve_no_index_returns_empty (s : SimpleRAG) (q : Str) (k : Nat)
    (h : s.index = none) : s.retrieve q k = .ok [] := by
  unfold SimpleRAG.retrieve
  rw [h]

theorem retrieve_no_index_returns_empty_witness :
    (SimpleRAG.init m0).index = none ∧
    (SimpleRAG.init m0).retrieve (String.toList "anything") 5 = .ok [] :=
  ⟨rfl, retrieve_no_index_returns_empty (SimpleRAG.init m0)
    (String.toList "anything") 5 rfl⟩

/-- C5: the implementation operates in distance mode (`IndexFlatL2`, squared
L2): in every successful retrieval the scores are non-decreasing with rank
(adjacent pairs), and the underlying search output is ordered by ascending
distance with ties broken by ascending corpus id — under the float32
realisability condition that every true distance is below `FLT_MAX`, the
padding sentinel. -/
theorem retrieve_scores_nondecreasing (s : SimpleRAG) (I : FaissIndexFlatL2) (q : Str)
    (k : Nat) (rs : List RankedResult) (hI : s.index = some I)
    (hd : ∀ v ∈ I.xb, sqL2 (s.model q) v < FLT_MAX)
    (hok : s.retrieve q k = .ok rs) :
    List.Chain' (fun a b => a.score ≤ b.score) rs ∧
    List.Chain' pairLe (faissSearchList I (s.model q) k) := by
  have hchain := faissSearchList_chain I (s.model q) k hd
  refine ⟨?_, hchain⟩
  unfold SimpleRAG.retrieve at hok
  rw [hI] at hok
  dsimp only at hok
  by_cases hdim : (s.model q).length = I.d
  · rw [if_pos hdim] at hok
    obtain ⟨_, hscores, _⟩ := formatResults_ok _ 0 rs hok
    have h1 : List.Chain' (fun a b : ℚ × Int => a.1 ≤ b.1)
        (faissSearchList I (s.model q) k) := by
      refine hchain.imp ?_
      intro a b hab
      rcases hab with h | ⟨h, _⟩
      · exact le_of_lt h
      · exact le_of_eq h
    have h2 : List.Chain' (fun x y : ℚ => x ≤ y) (rs.map RankedResult.score) := by
      rw [hscores]
      exact (List.chain'_map Prod.fst).mpr h1
    exact (List.chain'_map RankedResult.score).mp h2
  · rw [if_neg hdim] at hok
    cases hok

unseal Rat.mul Rat.sub Rat.add in
theorem retrieve_scores_nondecreasing_witness :
    sqL2 (m0 (String.toList "q")) [1] < FLT_MAX ∧
    List.Chain' (fun a b : RankedResult => a.score ≤ b.score)
      [{ chunk := String.toList "A", score := 0, rank := 1 }] ∧
    List.Chain' pairLe (faissSearchList { d := 1, xb := [[1]] } (m0 (String.toList "q")) 1) := by
  have h := retrieve_scores_nondecreasing ragA { d := 1, xb := [[1]] }
    (String.toList "q") 1 [{ chunk := String.toList "A", score := 0, rank := 1 }]
    (by decide) (by decide) (by decide)
  exact ⟨by decide, h.1, h.2⟩

/-- C6 counterexample: on the document of a 499-character word, a space, and
a 501-character word, the wrapper places the space exactly at the width
boundary; the long word contributes an empty fragment, the one-shot
trailing-whitespace drop removes only that fragment, and the first emitted
chunk ends in a space — "x…x " (500 characters).  This falsifies the claim
that trailing whitespace is trimmed from every produced passage. -/
theorem chunk_emits_trailing_space :
    chunkDocs [cexC6] =
      [List.replicate 499 'x' ++ [' '], List.replicate 500 'y', ['y']] ∧
    (List.replicate 499 'x' ++ [' ']).getLast? = some ' ' := by
  refine ⟨by decide, by decide⟩

/-- C6 (amended): for every input document list, every produced chunk is
non-empty, starts with a non-whitespace character, contains no two adjacent
spaces and no whitespace other than the space character (a single trailing
space is possible when a wrap boundary falls on a space that exactly fills
the line), and concatenating the chunks preserves the input's non-whitespace
characters in order. -/
theorem chunker_clean_chunks (docs : List Str) :
    (∀ c ∈ chunkDocs docs, CleanChunkB c = true) ∧
    filterNS (chunkDocs docs).flatten = filterNS docs.flatten :=
  ⟨fun c hc => (chunkDocs_clean docs c hc).1, chunkDocs_chars docs⟩

theorem chunker_clean_chunks_witness :
    CleanChunkB (String.toList "hi") = true ∧
    filterNS (chunkDocs [String.toList "hi"]).flatten =
      filterNS ([String.toList "hi"] : List Str).flatten := by
  have h := chunker_clean_chunks [String.toList "hi"]
  exact ⟨h.1 (String.toList "hi") (by decide), h.2⟩

/-- C7: chunking the single document "A.\n\nB.\n\nC." produces exactly the
three passages "A.", "B.", "C." in order. -/
theorem chunk_scenario_three_paragraphs :
    chunkDocs [String.toList "A.\n\nB.\n\nC."] =
      [String.toList "A.", String.toList "B.", String.toList "C."] := by
  decide

/-- C8: `retrieve` leaves the state (chunks, index, model) unchanged, and
calling it twice on the same state with the same query and `k` yields the
identical output, scores and ordering included — the method reads
`self.model`, `self.index` and `self.chunks` but writes nothing. -/
theorem retrieve_idempotent_and_pure (s : SimpleRAG) (q : Str) (k : Nat) :
    (s.retrieveM q k).2 = s ∧
    ((s.retrieveM q k).2).retrieveM q k = s.retrieveM q k :=
  ⟨rfl, rfl⟩

/-- C9 counterexample: with corpus embeddings absent (no index), `retrieve`
returns the empty sequence rather than failing with a dimension-mismatch
condition, falsifying the claim for the "embeddings absent" case. -/
theorem retrieve_absent_index_not_dim_error :
    (SimpleRAG.init m0).retrieve (String.toList "q") 1 = .ok [] ∧
    (Except.ok ([] : List RankedResult) : Except PyErr (List RankedResult)) ≠
      .error PyErr.dimensionMismatch := by
  refine ⟨rfl, by decide⟩

/-- C9 (amended): when an index exists and the query embedding's
dimensionality disagrees with the index dimensionality, `retrieve` fails
with the dimension-mismatch condition (the FAISS binding's assertion)
rather than silently producing wrong results; when corpus embeddings are
absent it instead returns the empty sequence. -/
theorem retrieve_dim_mismatch_errors (s : SimpleRAG) (I : FaissIndexFlatL2) (q : Str)
    (k : Nat) (hI : s.index = some I) (hne : (s.model q).length ≠ I.d) :
    s.retrieve q k = .error .dimensionMismatch := by
  unfold SimpleRAG.retrieve
  rw [hI]
  dsimp only
  rw [if_neg hne]

unseal Rat.mul Rat.sub Rat.add in
theorem retrieve_dim_mismatch_errors_witness :
    ragMis.index = some { d := 2, xb := [[0, 0]] } ∧
    (m0 (String.toList "q")).length ≠ 2 ∧
    ragMis.retrieve (String.toList "q") 1 = .error .dimensionMismatch := by
  refine ⟨rfl, by decide, ?_⟩
  exact retrieve_dim_mismatch_errors ragMis { d := 2, xb := [[0, 0]] }
    (String.toList "q") 1 rfl (by decide)

/-- C10: when the newly loaded documents chunk to zero passages,
`build_index` returns early: the previous FAISS index object stays
installed next to the now-empty chunk list, and a later `retrieve` still
searches the old embeddings — it obtains a hit from the stale index and then
crashes with an IndexError when mapping the hit's id into the empty chunk
list. -/
theorem stale_index_after_empty_reload (s : SimpleRAG) (I : FaissIndexFlatL2)
    (docs : List Str) (q : Str) (k : Nat)
    (hI : s.index = some I) (hch : chunkDocs docs = []) (hk : 1 ≤ k)
    (hxb : I.xb ≠ []) (hdim : (s.model q).length = I.d) :
    ((s.load_documents docs).build_index).index = some I ∧
    ((s.load_documents docs).build_index).chunks = [] ∧
    ((s.load_documents docs).build_index).retrieve q k = .error .indexError := by
  have hb : (s.load_documents docs).build_index =
      { model := s.model, chunks := ([] : List Str), index := s.index } := by
    unfold SimpleRAG.build_index SimpleRAG.load_documents
    dsimp only
    rw [hch]
  refine ⟨by rw [hb]; exact hI, by rw [hb], ?_⟩
  rw [hb]
  unfold SimpleRAG.retrieve
  dsimp only
  rw [hI]
  dsimp only
  rw [if_pos hdim]
  have hlen : (knnAll I (s.model q)).length = I.xb.length := by
    unfold knnAll
    rw [(List.perm_insertionSort pairLe _).length_eq, distPairs_length]
  have hkn : knnAll I (s.model q) ≠ [] := by
    intro h0
    rw [h0] at hlen
    exact hxb (List.length_eq_zero.mp hlen.symm)
  obtain ⟨p, ps, hp⟩ := List.exists_cons_of_ne_nil hkn
  obtain ⟨k', hk'⟩ := Nat.exists_eq_succ_of_ne_zero (by omega : k ≠ 0)
  obtain ⟨d0, i0⟩ := p
  have hfs : faissSearchList I (s.model q) k =
      (d0, i0) :: (ps.take k' ++ List.replicate (k - (knnAll I (s.model q)).length)
        (FLT_MAX, -1)) := by
    unfold faissSearchList
    rw [hp, hk']
    dsimp only
    rw [List.take_succ_cons, List.cons_append]
  rw [hfs]
  exact formatResults_head_err (pyGet_nil i0)

unseal Rat.mul Rat.sub Rat.add in
theorem stale_index_after_empty_reload_witness :
    ragA.index = some { d := 1, xb := [[1]] } ∧
    chunkDocs [String.toList ""] = [] ∧
    (ragA2.index = some { d := 1, xb := [[1]] } ∧ ragA2.chunks = [] ∧
     ragA2.retrieve (String.toList "q") 1 = .error .indexError) := by
  have h := stale_index_after_empty_reload ragA { d := 1, xb := [[1]] }
    [String.toList ""] (String.toList "q") 1 (by decide) (by decide) (by omega)
    (by decide) (by decide)
  exact ⟨by decide, by decide, h⟩
